import Mathlib

/-!
Verification development for the `youtube_music_metadata` repository.

The repository downloads audio from YouTube via an external downloader
(yt-dlp) and writes descriptive tags (title, artist, date, comment,
description, cover art) into the resulting audio file with the mutagen
tag library.  This file gives a shallow embedding of the repository's
metadata pipeline:

* a JSON value model together with a compact serializer and a parser
  modelling Python's `json.loads` on the byte streams produced by
  `yt-dlp --dump-json`, used to embed `fetch_metadata` and its
  concatenated-objects repair heuristic
  (`src/youtube_music_metadata/utilities.py`, lines 86-125);
* a small file-system/tag-container state model for the mutagen-based
  tag writers `set_cover`, `set_m4a_metadata` and `set_opus_metadata`
  (`src/youtube_music_metadata/utilities.py`, lines 159-247) and the
  extension dispatch of `src/scripts/download_youtube_audio.py`
  (lines 88-98), with an effect trace recording the external calls
  (directory creation, HTTP fetch, subprocess runs, tag-library
  loads/saves).

Byte strings are modelled as `List Char` (the downloader output is
UTF-8; a raw newline byte cannot occur inside a multi-byte sequence, so
the character-level model is faithful for the newline-based repair).
-/

/-- Character constants used by the JSON model (double quote, backslash,
newline, and the two braces), written via code points. -/
def quoteC : Char := Char.ofNat 34

/-- Backslash character. -/
def bsC : Char := Char.ofNat 92

/-- Newline character, the separator in `yt-dlp --dump-json` multi-object
output. -/
def nlC : Char := Char.ofNat 10

/-- Opening brace character. -/
def lbraceC : Char := Char.ofNat 123

/-- Closing brace character. -/
def rbraceC : Char := Char.ofNat 125

/-- Characters that can occur in a JSON number token. -/
def isNumChar (c : Char) : Bool :=
  c.isDigit || decide (c = '-') || decide (c = '+') || decide (c = '.')
    || decide (c = 'e') || decide (c = 'E')

/-- JSON whitespace characters (space, newline, tab, carriage return);
`json.loads` accepts them around a top-level value. -/
def isWsChar (c : Char) : Bool :=
  decide (c = ' ') || decide (c = nlC) || decide (c = Char.ofNat 9)
    || decide (c = Char.ofNat 13)

/-- JSON values, modelling the documents exchanged with the downloader.
Numbers are kept as their lexemes (the repair and parse logic of the
program never inspects numeric values). -/
inductive Json where
  | str (s : List Char)
  | num (lex : List Char)
  | bool (b : Bool)
  | null
  | arr (elems : List Json)
  | obj (members : List (List Char × Json))

/-- One escaped character of a JSON string literal: the double quote,
the backslash, and the newline are escaped, everything else is emitted
verbatim (the compact one-object-per-line downloader output never
contains a raw newline). -/
def escapeChar (c : Char) : List Char :=
  if c = quoteC then [bsC, quoteC]
  else if c = bsC then [bsC, bsC]
  else if c = nlC then [bsC, 'n']
  else [c]

/-- Escaping of a JSON string body. -/
def escapeStr : List Char → List Char
  | [] => []
  | c :: s => escapeChar c ++ escapeStr s

mutual

/-- Compact serialization of a JSON value, the form emitted by
`yt-dlp --dump-json` (no whitespace between tokens). -/
def serialize : Json → List Char
  | Json.str s => quoteC :: escapeStr s ++ [quoteC]
  | Json.num lex => lex
  | Json.bool true => ['t', 'r', 'u', 'e']
  | Json.bool false => ['f', 'a', 'l', 's', 'e']
  | Json.null => ['n', 'u', 'l', 'l']
  | Json.arr xs => '[' :: serializeElems xs ++ [']']
  | Json.obj kvs => lbraceC :: serializeMembers kvs ++ [rbraceC]

/-- Comma-separated serialization of array elements. -/
def serializeElems : List Json → List Char
  | [] => []
  | x :: xs => serialize x ++ serializeElemsTail xs

/-- Remaining array elements, each preceded by a comma. -/
def serializeElemsTail : List Json → List Char
  | [] => []
  | x :: xs => ',' :: serialize x ++ serializeElemsTail xs

/-- Comma-separated serialization of object members. -/
def serializeMembers : List (List Char × Json) → List Char
  | [] => []
  | (k, v) :: kvs => serializeMember k v ++ serializeMembersTail kvs

/-- Remaining object members, each preceded by a comma. -/
def serializeMembersTail : List (List Char × Json) → List Char
  | [] => []
  | (k, v) :: kvs => ',' :: serializeMember k v ++ serializeMembersTail kvs

/-- One `"key":value` member. -/
def serializeMember (k : List Char) (v : Json) : List Char :=
  quoteC :: escapeStr k ++ quoteC :: ':' :: serialize v

end

mutual

/-- Well-formedness of a modelled JSON value: number lexemes are
nonempty and consist of number characters. -/
def wf : Json → Bool
  | Json.str _ => true
  | Json.num lex => !lex.isEmpty && lex.all isNumChar
  | Json.bool _ => true
  | Json.null => true
  | Json.arr xs => wfElems xs
  | Json.obj kvs => wfMembers kvs

/-- Well-formedness of a list of array elements. -/
def wfElems : List Json → Bool
  | [] => true
  | x :: xs => wf x && wfElems xs

/-- Well-formedness of a list of object members. -/
def wfMembers : List (List Char × Json) → Bool
  | [] => true
  | (_, v) :: kvs => wf v && wfMembers kvs

end

mutual

/-- Structural fuel measure for the parser: an upper bound on the
number of nested parsing steps a value needs. -/
def fsize : Json → Nat
  | Json.str _ => 1
  | Json.num _ => 1
  | Json.bool _ => 1
  | Json.null => 1
  | Json.arr xs => 1 + fsizeElems xs
  | Json.obj kvs => 1 + fsizeMembers kvs

/-- Fuel measure for array elements. -/
def fsizeElems : List Json → Nat
  | [] => 0
  | x :: xs => 1 + fsize x + fsizeElems xs

/-- Fuel measure for object members. -/
def fsizeMembers : List (List Char × Json) → Nat
  | [] => 0
  | (_, v) :: kvs => 1 + fsize v + fsizeMembers kvs

end

/-- Inverse of `escapeChar` on the character following a backslash. -/
def unescapeChar (e : Char) : Char :=
  if e = 'n' then nlC else e

/-- Parser for the body of a JSON string literal (after the opening
quote), consuming up to and including the closing quote. -/
def parseStrBody : List Char → Option (List Char × List Char)
  | [] => none
  | c :: s =>
    if c = quoteC then some ([], s)
    else if c = bsC then
      match s with
      | [] => none
      | e :: s2 =>
        match parseStrBody s2 with
        | some (out, r) => some (unescapeChar e :: out, r)
        | none => none
    else
      match parseStrBody s with
      | some (out, r) => some (c :: out, r)
      | none => none

mutual

/-- Fuel-indexed parser for one JSON value, modelling the grammar
accepted by Python's `json.loads` on the compact documents this
program exchanges (no whitespace inside a value). -/
def parseVal : Nat → List Char → Option (Json × List Char)
  | 0, _ => none
  | _ + 1, [] => none
  | f + 1, c :: s =>
    if c = quoteC then
      match parseStrBody s with
      | some (out, r) => some (Json.str out, r)
      | none => none
    else if c = '[' then
      match s with
      | [] => none
      | c2 :: r2 =>
        if c2 = ']' then some (Json.arr [], r2)
        else
          match parseElems f (c2 :: r2) with
          | some (xs, r) => some (Json.arr xs, r)
          | none => none
    else if c = lbraceC then
      match s with
      | [] => none
      | c2 :: r2 =>
        if c2 = rbraceC then some (Json.obj [], r2)
        else
          match parseMembers f (c2 :: r2) with
          | some (kvs, r) => some (Json.obj kvs, r)
          | none => none
    else if c = 't' then
      match s with
      | 'r' :: 'u' :: 'e' :: r => some (Json.bool true, r)
      | _ => none
    else if c = 'f' then
      match s with
      | 'a' :: 'l' :: 's' :: 'e' :: r => some (Json.bool false, r)
      | _ => none
    else if c = 'n' then
      match s with
      | 'u' :: 'l' :: 'l' :: r => some (Json.null, r)
      | _ => none
    else if isNumChar c then
      some (Json.num (c :: s.takeWhile isNumChar), s.dropWhile isNumChar)
    else none

/-- Fuel-indexed parser for a nonempty comma-separated element list,
consuming the closing bracket. -/
def parseElems : Nat → List Char → Option (List Json × List Char)
  | 0, _ => none
  | f + 1, s =>
    match parseVal f s with
    | none => none
    | some (v, r) =>
      match r with
      | ',' :: r2 =>
        match parseElems f r2 with
        | some (xs, r3) => some (v :: xs, r3)
        | none => none
      | ']' :: r2 => some ([v], r2)
      | _ => none

/-- Fuel-indexed parser for a nonempty comma-separated member list,
consuming the closing brace. -/
def parseMembers : Nat → List Char → Option (List (List Char × Json) × List Char)
  | 0, _ => none
  | f + 1, s =>
    match s with
    | [] => none
    | c :: s2 =>
      if c = quoteC then
        match parseStrBody s2 with
        | none => none
        | some (k, r1) =>
          match r1 with
          | ':' :: r2 =>
            match parseVal f r2 with
            | none => none
            | some (v, r3) =>
              match r3 with
              | ',' :: r4 =>
                match parseMembers f r4 with
                | some (kvs, r5) => some ((k, v) :: kvs, r5)
                | none => none
              | c4 :: r4 =>
                if c4 = rbraceC then some ([(k, v)], r4) else none
              | [] => none
          | _ => none
      else none

end

/-- Model of Python's `json.loads` on a byte stream: parse one value,
then require the rest of the input to be whitespace ("Extra data"
raises `JSONDecodeError` otherwise). -/
def json_loads (s : List Char) : Option Json :=
  match parseVal (s.length + 1) s with
  | some (v, rest) => if rest.all isWsChar then some v else none
  | none => none

/-- Boolean prefix test on character lists. -/
def isPre : List Char → List Char → Bool
  | [], _ => true
  | _ :: _, [] => false
  | a :: ps, b :: s => decide (a = b) && isPre ps s

/-- Python's `bytes.replace`: replace every leftmost non-overlapping
occurrence of the pattern `p0 :: ps` by `rep`, scanning left to right. -/
def replaceAll (p0 : Char) (ps : List Char) (rep : List Char) : List Char → List Char
  | [] => []
  | c :: s =>
    if isPre (p0 :: ps) (c :: s) then
      rep ++ replaceAll p0 ps rep (s.drop ps.length)
    else
      c :: replaceAll p0 ps rep s
termination_by l => l.length
decreasing_by
  · simp only [List.length_drop, List.length_cons]
    omega
  · simp

/-- The concatenated-objects repair of `fetch_metadata`
(`src/youtube_music_metadata/utilities.py`, line 119 and
`src/__main__.py`, line 130):
`b"[" + stdout.replace(b"}\n{", b"},{").replace(b"}\n", b"}") + b"]"`. -/
def repair (s : List Char) : List Char :=
  '[' :: replaceAll rbraceC [nlC]
      [rbraceC]
      (replaceAll rbraceC [nlC, lbraceC] [rbraceC, ',', lbraceC] s)
    ++ [']']

/-- Result of one external downloader invocation: exit code and
captured standard output. -/
structure ProcResult where
  returncode : Int
  stdout : List Char

/-- Decimal digits of a natural number. -/
def natChars (n : Nat) : List Char := Nat.toDigits 10 n

/-- Decimal rendering of an integer, as Python's `%i`. -/
def intChars : Int → List Char
  | Int.ofNat n => natChars n
  | Int.negSucc n => '-' :: natChars (n + 1)

/-- The message of the exception raised by `fetch_metadata` on a
non-zero exit code (`utilities.py`, line 123). -/
def fetchFailMsg (url : List Char) (rc : Int) : List Char :=
  ("Subprocess call failed for url `").data ++ url
    ++ ("` when attempting to write metadata with code: ").data ++ intChars rc

/-- The `JSONDecodeError` escaping `fetch_metadata` when the repaired
stream still fails to parse (the second `json.loads` of line 119 is not
inside a `try`). -/
def jsonDecodeErrMsg : List Char := ("JSONDecodeError").data

/-- Embeds `fetch_metadata` from `src/youtube_music_metadata/utilities.py`
(lines 86-125) as a function of the downloader result:
on exit code 0 parse stdout as one JSON document; on `JSONDecodeError`
retry on the repaired stream; on non-zero exit raise an exception whose
message names the URL and the exit code.  (The bare `except` of line
120 catches only non-`JSONDecodeError` failures of the first parse,
which the parse model cannot produce.) -/
def fetch_metadata (url : List Char) (response : ProcResult) : Except (List Char) Json :=
  if response.returncode = 0 then
    match json_loads response.stdout with
    | some v => Except.ok v
    | none =>
      match json_loads (repair response.stdout) with
      | some v => Except.ok v
      | none => Except.error jsonDecodeErrMsg
  else
    Except.error (fetchFailMsg url response.returncode)

/-- The legacy copy of `fetch_metadata` in `src/__main__.py`
(lines 101-136): identical parsing, but a non-zero exit code is only
logged (`logger.error`, line 134) and the initial empty dict is
returned normally instead of raising. -/
def fetch_metadata_legacy (response : ProcResult) : Except (List Char) Json :=
  if response.returncode = 0 then
    match json_loads response.stdout with
    | some v => Except.ok v
    | none =>
      match json_loads (repair response.stdout) with
      | some v => Except.ok v
      | none => Except.error jsonDecodeErrMsg
  else
    Except.ok (Json.obj [])

/-- Remaining newline-joined documents. -/
def joinNlTail : List (List Char) → List Char
  | [] => []
  | s :: ss => nlC :: s ++ joinNlTail ss

/-- Newline-joined concatenation of serialized documents, the shape of
`yt-dlp --dump-json` output for a playlist. -/
def joinNl : List (List Char) → List Char
  | [] => []
  | s :: ss => s ++ joinNlTail ss

/-- Whether a JSON value is an object. -/
def isObjB : Json → Bool
  | Json.obj _ => true
  | _ => false

/-- Character lists standing for byte strings and paths. -/
abbrev LChar := List Char

/-- Byte sequences (thumbnail and cover-art payloads). -/
abbrev Bytes := List Nat

/-- Python-level failures that the tag-writing code can raise:
a generic `Exception` with a message, a `KeyError` on a missing
metadata field, a mutagen load failure, and a `requests` transport
failure. -/
inductive PyErr where
  | exn (msg : LChar)
  | keyError (k : LChar)
  | mutagenError
  | httpError
deriving DecidableEq

/-- In-memory MP4 tag container (the mutagen `MP4` object): the five
text atoms the program writes plus the cover-art list `covr`.  A
`save` writes the whole in-memory container back to the file. -/
structure Mp4Tags where
  nam : Option LChar := none
  art : Option LChar := none
  day : Option LChar := none
  cmt : Option LChar := none
  desc : Option LChar := none
  covr : Option (List Bytes) := none
deriving DecidableEq

/-- One ID3 `APIC` (attached picture) frame: mime type, description
(the frame hash key is `APIC:` + description) and image bytes. -/
structure Apic where
  mime : LChar
  adesc : LChar
  data : Bytes
deriving DecidableEq

/-- In-memory ID3 tag container: the attached-picture frames (the only
frames `set_cover` touches). -/
structure Id3Tags where
  apics : List Apic
deriving DecidableEq

/-- mutagen `ID3.add`: a frame replaces an existing frame with the same
hash key (same description for `APIC`), otherwise it is appended. -/
def Id3Tags.addApic (t : Id3Tags) (a : Apic) : Id3Tags :=
  if t.apics.any (fun x => decide (x.adesc = a.adesc)) then
    ⟨t.apics.map (fun x => if x.adesc = a.adesc then a else x)⟩
  else ⟨t.apics ++ [a]⟩

/-- In-memory Opus (Vorbis comment) container: the five keys
`set_opus_metadata` writes; other keys are untouched by the program
and omitted from the model. -/
structure OpusTags where
  otitle : Option LChar := none
  oartist : Option LChar := none
  odate : Option LChar := none
  ocomment : Option LChar := none
  odescription : Option LChar := none
deriving DecidableEq

/-- Content of a file on disk: a tag container of one of the three
formats, or raw bytes (the scratch `cover.jpg`).  A mutagen load of the
wrong kind raises. -/
inductive FileData where
  | mp4 (t : Mp4Tags)
  | mp3 (t : Id3Tags)
  | opus (t : OpusTags)
  | raw (b : Bytes)
deriving DecidableEq

/-- The file-system state visible to the program. -/
structure World where
  fs : LChar → Option FileData

/-- Writing one file. -/
def World.setFile (w : World) (p : LChar) (d : FileData) : World :=
  ⟨fun q => if q = p then some d else w.fs q⟩

/-- Externally visible calls made by the program, in order. -/
inductive Eff where
  | mkdirParents (dir : LChar)
  | subprocessRun (cmd : List LChar)
  | httpGet (u : LChar)
  | fsWrite (p : LChar)
  | mp4Load (p : LChar)
  | mp3Load (p : LChar)
  | opusLoad (p : LChar)
  | tagSave (p : LChar)
deriving DecidableEq

/-- Result of running one of the modelled functions: the Python-level
result, the final file-system state, and the trace of external calls. -/
structure Outcome where
  result : Except PyErr Unit
  world : World
  trace : List Eff

/-- The fixed working directory of the modelled process
(`Path.cwd()`). -/
def cwdPath : LChar := ("/cwd").data

/-- The fixed scratch path `Path.cwd() / "cover.jpg"` that `set_cover`
overwrites on every call (`utilities.py`, line 175), which is also the
default `file_path` of `set_cover` (line 170). -/
def scratchPath : LChar := ("/cwd/cover.jpg").data

/-- `str.endswith`, via a reversed prefix test. -/
def endsWith (s suf : LChar) : Bool := isPre suf.reverse s.reverse

/-- Last path component (after the final slash). -/
def baseName (p : LChar) : LChar :=
  ((p.reverse).takeWhile (fun c => !decide (c = '/'))).reverse

/-- `pathlib.PurePath.suffix`: the final `"."`-suffix of the base name,
empty when the dot is leading, trailing or absent. -/
def pathSuffix (p : LChar) : LChar :=
  let r := (baseName p).reverse
  let after := r.takeWhile (fun c => !decide (c = '.'))
  match r.drop after.length with
  | [] => []
  | _ :: before =>
    if after.isEmpty || before.isEmpty then [] else '.' :: after.reverse

/-- `str.lower` on a path (ASCII suffices here). -/
def strLower (s : LChar) : LChar := s.map Char.toLower

/-- `pathlib.PurePath.parent` as a string: everything before the final
slash, `"."` when there is no slash, `"/"` at the root. -/
def parentOf (p : LChar) : LChar :=
  let r := p.reverse
  let after := r.takeWhile (fun c => !decide (c = '/'))
  match r.drop after.length with
  | [] => ['.']
  | ['/'] => ['/']
  | _ :: before => before.reverse

/-- Python dict lookup over an association list (a `KeyError` is a
`none`). -/
def dictGet (d : List (LChar × LChar)) (k : LChar) : Option LChar :=
  match d with
  | [] => none
  | (k2, v) :: rest => if k2 = k then some v else dictGet rest k

/-- The MIME string `set_cover` computes for the MP3 branch from the
cover URL's extension (`utilities.py`, lines 182-185). -/
def coverMime (cover : LChar) : LChar :=
  if endsWith cover (".jpg").data || endsWith cover (".jpeg").data then
    ("image/jpg").data
  else ("image/png").data

/-- The `cover_format` string `set_cover` computes for the MP4 branch
from the cover URL's extension (`utilities.py`, lines 191-194).  Note
it is the literal string `'MP4Cover.FORMAT_JPEG'`/`'..._PNG'`, not the
mutagen enum, and the subsequent `bytes(albumart)` conversion drops it
before the cover is stored. -/
def coverFormatMp4 (cover : LChar) : LChar :=
  if endsWith cover (".jpg").data || endsWith cover (".jpeg").data then
    ("MP4Cover.FORMAT_JPEG").data
  else ("MP4Cover.FORMAT_PNG").data

/-- Embeds `set_cover` from `src/youtube_music_metadata/utilities.py`
(lines 159-198).  `http` is the `requests.get` environment (`none`
models a transport failure that raises).  Steps, in source order:
resolve the default path, `mkdir` the parent, fetch the cover URL,
overwrite the scratch `cover.jpg` with the fetched bytes, then branch
solely on `file_path.endswith(".mp3")`: the MP3 branch loads the file
with mutagen `MP3`, adds one `APIC` frame (desc `Cover`, mime from the
URL extension) and saves; every other path takes the MP4 branch, which
loads the file with mutagen `MP4`, replaces `covr` with the single
fetched image (as raw bytes, `bytes(albumart)`) and saves. -/
def set_cover (http : LChar → Option Bytes) (cover : LChar)
    (fpo : Option LChar) (w : World) : Outcome :=
  let fp := fpo.getD scratchPath
  let t0 := [Eff.mkdirParents (parentOf fp)]
  match http cover with
  | none => ⟨Except.error PyErr.httpError, w, t0 ++ [Eff.httpGet cover]⟩
  | some content =>
    let w1 := w.setFile scratchPath (FileData.raw content)
    let t1 := t0 ++ [Eff.httpGet cover, Eff.fsWrite scratchPath]
    if endsWith fp (".mp3").data then
      match w1.fs fp with
      | some (FileData.mp3 t) =>
        let t2 := t.addApic ⟨coverMime cover, ("Cover").data, content⟩
        ⟨Except.ok (), w1.setFile fp (FileData.mp3 t2),
          t1 ++ [Eff.mp3Load fp, Eff.tagSave fp]⟩
      | _ => ⟨Except.error PyErr.mutagenError, w1, t1 ++ [Eff.mp3Load fp]⟩
    else
      match w1.fs fp with
      | some (FileData.mp4 m) =>
        ⟨Except.ok (), w1.setFile fp (FileData.mp4 { m with covr := some [content] }),
          t1 ++ [Eff.mp4Load fp, Eff.tagSave fp]⟩
      | _ => ⟨Except.error PyErr.mutagenError, w1, t1 ++ [Eff.mp4Load fp]⟩

/-- Embeds `set_m4a_metadata` from
`src/youtube_music_metadata/utilities.py` (lines 201-226).  It loads
the file into an in-memory `MP4` container, assigns the five text
fields from the metadata dict (each access in source order can raise
`KeyError`), calls `set_cover(file_metadata["thumbnail"], file_path)`,
and finally saves the in-memory container loaded at the start — whose
`covr` entry is still the one loaded from the original file, so the
final save rewrites the file with the pre-`set_cover` cover list. -/
def set_m4a_metadata (http : LChar → Option Bytes) (fp : LChar)
    (md : List (LChar × LChar)) (w : World) : Outcome :=
  match w.fs fp with
  | some (FileData.mp4 tags) =>
    match dictGet md ("title").data with
    | none => ⟨Except.error (PyErr.keyError ("title").data), w, [Eff.mp4Load fp]⟩
    | some title =>
    match dictGet md ("channel").data with
    | none => ⟨Except.error (PyErr.keyError ("channel").data), w, [Eff.mp4Load fp]⟩
    | some channel =>
    match dictGet md ("upload_date").data with
    | none => ⟨Except.error (PyErr.keyError ("upload_date").data), w, [Eff.mp4Load fp]⟩
    | some upload =>
    match dictGet md ("webpage_url").data with
    | none => ⟨Except.error (PyErr.keyError ("webpage_url").data), w, [Eff.mp4Load fp]⟩
    | some wurl =>
    match dictGet md ("description").data with
    | none => ⟨Except.error (PyErr.keyError ("description").data), w, [Eff.mp4Load fp]⟩
    | some descr =>
    match dictGet md ("thumbnail").data with
    | none => ⟨Except.error (PyErr.keyError ("thumbnail").data), w, [Eff.mp4Load fp]⟩
    | some thumb =>
      let tags2 := { tags with
                     nam := some title, art := some channel,
                     day := some upload, cmt := some wurl,
                     desc := some descr }
      let r := set_cover http thumb (some fp) w
      match r.result with
      | Except.error e => ⟨Except.error e, r.world, Eff.mp4Load fp :: r.trace⟩
      | Except.ok _ =>
        ⟨Except.ok (), r.world.setFile fp (FileData.mp4 tags2),
          Eff.mp4Load fp :: r.trace ++ [Eff.tagSave fp]⟩
  | _ => ⟨Except.error PyErr.mutagenError, w, [Eff.mp4Load fp]⟩

/-- Embeds `set_opus_metadata` from
`src/youtube_music_metadata/utilities.py` (lines 229-247): loads the
file as `OggOpus`, assigns the five text keys from the metadata dict
(each access in source order can raise `KeyError`; `thumbnail` is
never read — cover embedding is unimplemented for Opus) and saves. -/
def set_opus_metadata (fp : LChar) (md : List (LChar × LChar)) (w : World) : Outcome :=
  match w.fs fp with
  | some (FileData.opus t) =>
    match dictGet md ("title").data with
    | none => ⟨Except.error (PyErr.keyError ("title").data), w, [Eff.opusLoad fp]⟩
    | some title =>
    match dictGet md ("channel").data with
    | none => ⟨Except.error (PyErr.keyError ("channel").data), w, [Eff.opusLoad fp]⟩
    | some channel =>
    match dictGet md ("upload_date").data with
    | none => ⟨Except.error (PyErr.keyError ("upload_date").data), w, [Eff.opusLoad fp]⟩
    | some upload =>
    match dictGet md ("webpage_url").data with
    | none => ⟨Except.error (PyErr.keyError ("webpage_url").data), w, [Eff.opusLoad fp]⟩
    | some wurl =>
    match dictGet md ("description").data with
    | none => ⟨Except.error (PyErr.keyError ("description").data), w, [Eff.opusLoad fp]⟩
    | some descr =>
      ⟨Except.ok (),
        w.setFile fp (FileData.opus { t with
                                      otitle := some title,
                                      oartist := some channel,
                                      odate := some upload,
                                      ocomment := some wurl,
                                      odescription := some descr }),
        [Eff.opusLoad fp, Eff.tagSave fp]⟩
  | _ => ⟨Except.error PyErr.mutagenError, w, [Eff.opusLoad fp]⟩

/-- Result of the `--set-m4a-metadata` command of
`src/scripts/download_youtube_audio.py`. -/
inductive TagWriteResult where
  | done
  | unsupported (ext : LChar)
  | raised (e : PyErr)
deriving DecidableEq

/-- Outcome of the dispatch command. -/
structure TagWriteOutcome where
  result : TagWriteResult
  world : World
  trace : List Eff

/-- Embeds the extension dispatch of `main` in
`src/scripts/download_youtube_audio.py` (lines 88-98): lower-case the
path suffix; `.m4a` goes to `set_m4a_metadata`, `.opus` to
`set_opus_metadata`, anything else only prints
`Unsupported file format: {ext}` and touches nothing. -/
def write_tags_dispatch (http : LChar → Option Bytes) (fp : LChar)
    (md : List (LChar × LChar)) (w : World) : TagWriteOutcome :=
  let ext := strLower (pathSuffix fp)
  if ext = (".m4a").data then
    let r := set_m4a_metadata http fp md w
    ⟨match r.result with
      | Except.ok _ => TagWriteResult.done
      | Except.error e => TagWriteResult.raised e, r.world, r.trace⟩
  else if ext = (".opus").data then
    let r := set_opus_metadata fp md w
    ⟨match r.result with
      | Except.ok _ => TagWriteResult.done
      | Except.error e => TagWriteResult.raised e, r.world, r.trace⟩
  else ⟨TagWriteResult.unsupported ext, w, []⟩

/-- Default yt-dlp output template `Path.cwd() / "%(title)s.%(ext)s"`
used when no file path is passed (`utilities.py`, lines 58-59 and
140-141). -/
def defaultTemplate : LChar := ("/cwd/%(title)s.%(ext)s").data

/-- The yt-dlp executable path as a command word (a module-level
constant in the source; its concrete value does not matter here). -/
def ytDlpWord : LChar := ("yt-dlp").data

/-- The download command of `download_audio_with_metadata`
(`utilities.py`, lines 63-71). -/
def audioCmd (fp url : LChar) : List LChar :=
  [ytDlpWord, ("--embed-thumbnail").data, ("--add-metadata").data,
   ("--extract-audio").data, ("-o").data, fp, url]

/-- The thumbnail command of `download_thumbnail`
(`utilities.py`, lines 144-153). -/
def thumbCmd (fp url : LChar) : List LChar :=
  [ytDlpWord, ("--write-thumbnail").data, ("--skip-download").data,
   ("-o").data, fp, url]

/-- Message of the exception raised by `download_audio_with_metadata`
and `download_thumbnail` on non-zero exit (`utilities.py`, lines 83
and 156 — both use the same text). -/
def downloadFailMsg (url : LChar) (rc : Int) : LChar :=
  ("Subprocess call failed for url ").data ++ url
    ++ (" when attempting to download video with metadata with code: ").data
    ++ intChars rc

/-- Embeds `download_audio_with_metadata` from
`src/youtube_music_metadata/utilities.py` (lines 46-83): resolve the
default output template, `mkdir` its parent (parents=True,
exist_ok=True), run the downloader, and raise on non-zero exit.  `rc`
is the exit code of the external process; the files the downloader
itself writes are outside the model. -/
def download_audio_with_metadata (rc : Int) (url : LChar)
    (fpo : Option LChar) : Except PyErr Unit × List Eff :=
  let fp := fpo.getD defaultTemplate
  let tr := [Eff.mkdirParents (parentOf fp), Eff.subprocessRun (audioCmd fp url)]
  (if rc = 0 then Except.ok () else Except.error (PyErr.exn (downloadFailMsg url rc)), tr)

/-- Embeds `download_thumbnail` from
`src/youtube_music_metadata/utilities.py` (lines 128-156), analogous
to `download_audio_with_metadata` with the thumbnail-only flags. -/
def download_thumbnail (rc : Int) (url : LChar)
    (fpo : Option LChar) : Except PyErr Unit × List Eff :=
  let fp := fpo.getD defaultTemplate
  let tr := [Eff.mkdirParents (parentOf fp), Eff.subprocessRun (thumbCmd fp url)]
  (if rc = 0 then Except.ok () else Except.error (PyErr.exn (downloadFailMsg url rc)), tr)

/-- Whether an `Except` result is a raised exception. -/
def isRaised : Except PyErr Unit → Bool
  | Except.error _ => true
  | Except.ok _ => false

/-- Whether a generic `Except` result is a raised exception. -/
def isRaisedE {α β : Type} : Except α β → Bool
  | Except.error _ => true
  | Except.ok _ => false

/-- Number of cover images embedded in the file at `p`, when it is an
MP4 container. -/
def coverCount (w : World) (p : LChar) : Option Nat :=
  match w.fs p with
  | some (FileData.mp4 t) => some ((t.covr.getD []).length)
  | _ => none

/-- Separator condition for the number parser: the input following a
serialized value must not begin with a number character (in the streams
of interest it is empty or begins with a newline, comma, bracket or
brace). -/
def sepOk : List Char → Prop
  | [] => True
  | c :: _ => isNumChar c = false

/-- The list does not begin with a newline. -/
def headNotNl : List Char → Prop
  | [] => True
  | c :: _ => c ≠ nlC

/-- The metadata record of the worked example in the specification:
all six required fields. -/
def exampleMd : List (LChar × LChar) :=
  [(("title").data, ("Song A").data),
   (("channel").data, ("Artist X").data),
   (("upload_date").data, ("20230115").data),
   (("webpage_url").data, ("https://example.com/v").data),
   (("description").data, ("desc").data),
   (("thumbnail").data, ("https://example.com/cover.jpg").data)]

/-- The same record without its `thumbnail` field. -/
def exampleMd5 : List (LChar × LChar) :=
  [(("title").data, ("Song A").data),
   (("channel").data, ("Artist X").data),
   (("upload_date").data, ("20230115").data),
   (("webpage_url").data, ("https://example.com/v").data),
   (("description").data, ("desc").data)]

/-- Concrete thumbnail bytes served by the modelled HTTP environment. -/
def exampleBytes : Bytes := [137, 80, 78, 71]

/-- HTTP environment serving `exampleBytes` for the example thumbnail
URL and failing on everything else. -/
def exampleHttp : LChar → Option Bytes :=
  fun u => if u = ("https://example.com/cover.jpg").data then some exampleBytes else none

/-- HTTP environment returning the same bytes for every URL. -/
def constHttp : LChar → Option Bytes := fun _ => some exampleBytes

/-- Path of the example media file `track.m4a`. -/
def trackPath : LChar := ("track.m4a").data

/-- A world holding one fresh MP4 file at `track.m4a` (no tags, no
cover) and nothing else. -/
def exampleWorld : World :=
  ⟨fun q => if q = trackPath then some (FileData.mp4 {}) else none⟩

/-- A world holding one fresh MP4 file at the scratch cover path. -/
def scratchWorld : World :=
  ⟨fun q => if q = scratchPath then some (FileData.mp4 {}) else none⟩

/-- Path of the example Opus file. -/
def opusPath : LChar := ("song.opus").data

/-- A world holding one fresh Opus file. -/
def opusWorld : World :=
  ⟨fun q => if q = opusPath then some (FileData.opus {}) else none⟩

/-- Path of the example MP3 file. -/
def mp3Path : LChar := ("song.mp3").data

/-- A world holding one MP3 file with no attached pictures. -/
def mp3World : World :=
  ⟨fun q => if q = mp3Path then some (FileData.mp3 ⟨[]⟩) else none⟩

/-- A nonempty run of number characters followed by a non-number
separator is exactly what `takeWhile`/`dropWhile` split off. -/
theorem numChar_take_drop (l rest : List Char)
    (hall : ∀ c ∈ l, isNumChar c = true) (hsep : sepOk rest) :
    (l ++ rest).takeWhile isNumChar = l ∧ (l ++ rest).dropWhile isNumChar = rest := by
  induction l with
  | nil =>
    simp only [List.nil_append]
    cases rest with
    | nil => simp
    | cons c r =>
      have hc : isNumChar c = false := hsep
      simp [hc]
  | cons c l ih =>
    have hc : isNumChar c = true := hall c (by simp)
    have hrec := ih (fun d hd => hall d (by simp [hd])) 
    simp [hc, hrec.1, hrec.2]

/-- Parsing the escaped body of a string recovers the original
characters and stops at the closing quote. -/
theorem parseStrBody_escape (s rest : List Char) :
    parseStrBody (escapeStr s ++ quoteC :: rest) = some (s, rest) := by
  induction s with
  | nil =>
    simp only [escapeStr, List.nil_append]
    rw [parseStrBody.eq_def]
    simp
  | cons c s ih =>
    by_cases h1 : c = quoteC
    · subst h1
      have hesc : escapeChar quoteC = [bsC, quoteC] := by decide
      simp only [escapeStr, hesc, List.cons_append, List.nil_append]
      rw [parseStrBody.eq_def]
      simp +decide [unescapeChar, ih]
    · by_cases h2 : c = bsC
      · subst h2
        have hesc : escapeChar bsC = [bsC, bsC] := by decide
        simp only [escapeStr, hesc, List.cons_append, List.nil_append]
        rw [parseStrBody.eq_def]
        simp +decide [unescapeChar, ih]
      · by_cases h3 : c = nlC
        · subst h3
          have hesc : escapeChar nlC = [bsC, 'n'] := by decide
          simp only [escapeStr, hesc, List.cons_append, List.nil_append]
          rw [parseStrBody.eq_def]
          simp +decide [unescapeChar, ih]
        · simp only [escapeStr, escapeChar, h1, h2, h3, if_false,
            List.cons_append, List.nil_append]
          rw [parseStrBody.eq_def]
          simp [h1, h2, ih]

/-- The escape table never emits a raw newline. -/
theorem escapeChar_no_nl (c : Char) : nlC ∉ escapeChar c := by
  by_cases h1 : c = quoteC
  · simp +decide [escapeChar, h1]
  · by_cases h2 : c = bsC
    · simp +decide [escapeChar, h1, h2]
    · by_cases h3 : c = nlC
      · simp +decide [escapeChar, h1, h2, h3]
      · simp only [escapeChar, h1, h2, h3, if_false, List.mem_singleton]
        exact fun hh => h3 hh.symm

/-- Escaped string bodies contain no raw newline. -/
theorem escapeStr_no_nl (s : List Char) : nlC ∉ escapeStr s := by
  induction s with
  | nil => simp [escapeStr]
  | cons c s ih =>
    simp only [escapeStr, List.mem_append]
    rintro (h | h)
    · exact escapeChar_no_nl c h
    · exact ih h

/-- Every JSON value costs at least one unit of parser fuel. -/
theorem fsize_pos (v : Json) : 1 ≤ fsize v := by
  cases v <;> simp [fsize]

/-- Well-formed serializations contain no raw newline byte, hence the
one-object-per-line stream only has newlines at object boundaries. -/
theorem serialize_no_nl_all : ∀ n : Nat,
    (∀ v, fsize v ≤ n → wf v = true → nlC ∉ serialize v)
  ∧ (∀ xs, fsizeElems xs ≤ n → wfElems xs = true →
      nlC ∉ serializeElems xs ∧ nlC ∉ serializeElemsTail xs)
  ∧ (∀ kvs, fsizeMembers kvs ≤ n → wfMembers kvs = true →
      nlC ∉ serializeMembers kvs ∧ nlC ∉ serializeMembersTail kvs) := by
  intro n
  induction n with
  | zero =>
    refine ⟨?_, ?_, ?_⟩
    · intro v hle _
      exact absurd hle (by have := fsize_pos v; omega)
    · intro xs hle _
      cases xs with
      | nil => simp [serializeElems, serializeElemsTail]
      | cons x xs => simp [fsizeElems] at hle
    · intro kvs hle _
      cases kvs with
      | nil => simp [serializeMembers, serializeMembersTail]
      | cons kv kvs =>
        obtain ⟨k, v⟩ := kv
        simp [fsizeMembers] at hle
  | succ n ih =>
    obtain ⟨ihv, ihe, ihm⟩ := ih
    have hmem : ∀ (k : List Char) (v : Json), fsize v ≤ n → wf v = true →
        nlC ∉ serializeMember k v := by
      intro k v hle hwf
      have hv := ihv v hle hwf
      simp +decide [serializeMember, List.mem_cons, List.mem_append,
        escapeStr_no_nl, hv]
    refine ⟨?_, ?_, ?_⟩
    · intro v hle hwf
      cases v with
      | str s =>
        simp +decide [serialize, List.mem_cons, List.mem_append, escapeStr_no_nl]
      | num lex =>
        have hall : ∀ x ∈ lex, isNumChar x = true := by
          simp [wf, Bool.and_eq_true] at hwf
          exact hwf.2
        intro hmem2
        have : isNumChar nlC = true := hall nlC (by simpa [serialize] using hmem2)
        exact absurd this (by decide)
      | bool b => cases b <;> simp +decide [serialize]
      | null => simp +decide [serialize]
      | arr xs =>
        have h1 : fsizeElems xs ≤ n := by simp [fsize] at hle; omega
        have h2 : wfElems xs = true := by simpa [wf] using hwf
        have he := (ihe xs h1 h2).1
        simp +decide [serialize, List.mem_cons, List.mem_append, he]
      | obj kvs =>
        have h1 : fsizeMembers kvs ≤ n := by simp [fsize] at hle; omega
        have h2 : wfMembers kvs = true := by simpa [wf] using hwf
        have he := (ihm kvs h1 h2).1
        simp +decide [serialize, List.mem_cons, List.mem_append, he]
    · intro xs hle hwfe
      cases xs with
      | nil => simp [serializeElems, serializeElemsTail]
      | cons x xs =>
        have hfs : fsize x ≤ n ∧ fsizeElems xs ≤ n := by
          simp [fsizeElems] at hle
          omega
        have hwfs : wf x = true ∧ wfElems xs = true := by
          simpa [wfElems, Bool.and_eq_true] using hwfe
        have hx := ihv x hfs.1 hwfs.1
        have hxs := (ihe xs hfs.2 hwfs.2).2
        constructor
        · simp [serializeElems, List.mem_append, hx, hxs]
        · simp +decide [serializeElemsTail, List.mem_cons, List.mem_append, hx, hxs]
    · intro kvs hle hwfm
      cases kvs with
      | nil => simp [serializeMembers, serializeMembersTail]
      | cons kv kvs =>
        obtain ⟨k, v⟩ := kv
        have hfs : fsize v ≤ n ∧ fsizeMembers kvs ≤ n := by
          simp [fsizeMembers] at hle
          omega
        have hwfs : wf v = true ∧ wfMembers kvs = true := by
          simpa [wfMembers, Bool.and_eq_true] using hwfm
        have hk := hmem k v hfs.1 hwfs.1
        have hkvs := (ihm kvs hfs.2 hwfs.2).2
        constructor
        · simp [serializeMembers, List.mem_append, hk, hkvs]
        · simp +decide [serializeMembersTail, List.mem_cons, List.mem_append, hk, hkvs]

/-- The parser fuel measure of a well-formed value is bounded by the
length of its serialization, so `json_loads` always supplies enough
fuel. -/
theorem fsize_le_len_all : ∀ n : Nat,
    (∀ v, fsize v ≤ n → wf v = true → fsize v ≤ (serialize v).length)
  ∧ (∀ xs, fsizeElems xs ≤ n → wfElems xs = true →
      fsizeElems xs ≤ (serializeElemsTail xs).length)
  ∧ (∀ kvs, fsizeMembers kvs ≤ n → wfMembers kvs = true →
      fsizeMembers kvs ≤ (serializeMembersTail kvs).length) := by
  intro n
  induction n with
  | zero =>
    refine ⟨?_, ?_, ?_⟩
    · intro v hle _
      exact absurd hle (by have := fsize_pos v; omega)
    · intro xs hle _
      cases xs with
      | nil => simp [fsizeElems]
      | cons x xs => simp [fsizeElems] at hle
    · intro kvs hle _
      cases kvs with
      | nil => simp [fsizeMembers]
      | cons kv kvs =>
        obtain ⟨k, v⟩ := kv
        simp [fsizeMembers] at hle
  | succ n ih =>
    obtain ⟨ihv, ihe, ihm⟩ := ih
    have helems : ∀ xs, fsizeElems xs ≤ n + 1 → wfElems xs = true →
        fsizeElems xs ≤ (serializeElems xs).length + 1 := by
      intro xs hle hwfe
      cases xs with
      | nil => simp [fsizeElems]
      | cons x xs =>
        have hfs : fsize x ≤ n ∧ fsizeElems xs ≤ n := by
          simp [fsizeElems] at hle; omega
        have hwfs : wf x = true ∧ wfElems xs = true := by
          simpa [wfElems, Bool.and_eq_true] using hwfe
        have h1 := ihv x hfs.1 hwfs.1
        have h2 := ihe xs hfs.2 hwfs.2
        simp only [fsizeElems, serializeElems, List.length_append]
        omega
    have hmembers : ∀ kvs, fsizeMembers kvs ≤ n + 1 → wfMembers kvs = true →
        fsizeMembers kvs ≤ (serializeMembers kvs).length + 1 := by
      intro kvs hle hwfm
      cases kvs with
      | nil => simp [fsizeMembers]
      | cons kv kvs =>
        obtain ⟨k, v⟩ := kv
        have hfs : fsize v ≤ n ∧ fsizeMembers kvs ≤ n := by
          simp [fsizeMembers] at hle; omega
        have hwfs : wf v = true ∧ wfMembers kvs = true := by
          simpa [wfMembers, Bool.and_eq_true] using hwfm
        have h1 := ihv v hfs.1 hwfs.1
        have h2 := ihm kvs hfs.2 hwfs.2
        simp only [fsizeMembers, serializeMembers, serializeMember,
          List.length_append, List.length_cons]
        omega
    refine ⟨?_, ?_, ?_⟩
    · intro v hle hwf
      cases v with
      | str s => simp [fsize, serialize]
      | num lex =>
        have hne : lex.isEmpty = false := by
          simp [wf, Bool.and_eq_true] at hwf
          simpa using hwf.1
        cases lex with
        | nil => simp at hne
        | cons c l => simp [fsize, serialize]
      | bool b => cases b <;> simp [fsize, serialize]
      | null => simp [fsize, serialize]
      | arr xs =>
        have h1 : fsizeElems xs ≤ n + 1 := by simp [fsize] at hle; omega
        have h2 : wfElems xs = true := by simpa [wf] using hwf
        have := helems xs h1 h2
        simp only [fsize, serialize, List.length_cons, List.length_append]
        omega
      | obj kvs =>
        have h1 : fsizeMembers kvs ≤ n + 1 := by simp [fsize] at hle; omega
        have h2 : wfMembers kvs = true := by simpa [wf] using hwf
        have := hmembers kvs h1 h2
        simp only [fsize, serialize, List.length_cons, List.length_append]
        omega
    · intro xs hle hwfe
      cases xs with
      | nil => simp [fsizeElems]
      | cons x xs =>
        have hfs : fsize x ≤ n ∧ fsizeElems xs ≤ n := by
          simp [fsizeElems] at hle; omega
        have hwfs : wf x = true ∧ wfElems xs = true := by
          simpa [wfElems, Bool.and_eq_true] using hwfe
        have h1 := ihv x hfs.1 hwfs.1
        have h2 := ihe xs hfs.2 hwfs.2
        simp only [fsizeElems, serializeElemsTail, List.length_cons,
          List.length_append]
        omega
    · intro kvs hle hwfm
      cases kvs with
      | nil => simp [fsizeMembers]
      | cons kv kvs =>
        obtain ⟨k, v⟩ := kv
        have hfs : fsize v ≤ n ∧ fsizeMembers kvs ≤ n := by
          simp [fsizeMembers] at hle; omega
        have hwfs : wf v = true ∧ wfMembers kvs = true := by
          simpa [wfMembers, Bool.and_eq_true] using hwfm
        have h1 := ihv v hfs.1 hwfs.1
        have h2 := ihm kvs hfs.2 hwfs.2
        simp only [fsizeMembers, serializeMembersTail, serializeMember,
          List.length_cons, List.length_append]
        omega

/-- Serializations of well-formed values are nonempty and never start
with a closing bracket (used to separate the empty-array case from a
first element). -/
theorem serialize_head_ne (v : Json) (h : wf v = true) :
    ∃ c t, serialize v = c :: t ∧ c ≠ ']' := by
  cases v with
  | str s =>
    exact ⟨quoteC, escapeStr s ++ [quoteC], by simp [serialize], by decide⟩
  | num lex =>
    have hne : lex.isEmpty = false := by
      simp [wf, Bool.and_eq_true] at h
      simpa using h.1
    have hall : ∀ x ∈ lex, isNumChar x = true := by
      simp [wf, Bool.and_eq_true] at h
      exact h.2
    cases lex with
    | nil => simp at hne
    | cons c l =>
      refine ⟨c, l, by simp [serialize], ?_⟩
      intro hc
      have := hall c (by simp)
      rw [hc] at this
      exact absurd this (by decide)
  | bool b =>
    cases b with
    | true => exact ⟨'t', ['r', 'u', 'e'], by simp [serialize], by decide⟩
    | false => exact ⟨'f', ['a', 'l', 's', 'e'], by simp [serialize], by decide⟩
  | null => exact ⟨'n', ['u', 'l', 'l'], by simp [serialize], by decide⟩
  | arr xs =>
    exact ⟨'[', serializeElems xs ++ [']'], by simp [serialize], by decide⟩
  | obj kvs =>
    exact ⟨lbraceC, serializeMembers kvs ++ [rbraceC], by simp [serialize], by decide⟩

/-- A number character is none of the dispatch characters of the value
parser. -/
theorem numChar_ne (c : Char) (h : isNumChar c = true) :
    c ≠ quoteC ∧ c ≠ '[' ∧ c ≠ lbraceC ∧ c ≠ 't' ∧ c ≠ 'f' ∧ c ≠ 'n' := by
  refine ⟨?_, ?_, ?_, ?_, ?_, ?_⟩ <;>
    (intro he; subst he; exact absurd h (by decide))

/-- Round trip of the `json.loads` model over the serializer: with
enough fuel, parsing a well-formed serialized value consumes exactly
its serialization (jointly with the element-list and member-list
parsers). -/
theorem parse_serialize_all : ∀ fuel : Nat,
    (∀ v rest, wf v = true → fsize v ≤ fuel → sepOk rest →
      parseVal fuel (serialize v ++ rest) = some (v, rest))
  ∧ (∀ x xs rest, wf x = true → wfElems xs = true → fsizeElems (x :: xs) ≤ fuel →
      parseElems fuel (serializeElems (x :: xs) ++ ']' :: rest) = some (x :: xs, rest))
  ∧ (∀ k v kvs rest, wf v = true → wfMembers kvs = true →
      fsizeMembers ((k, v) :: kvs) ≤ fuel →
      parseMembers fuel (serializeMembers ((k, v) :: kvs) ++ rbraceC :: rest)
        = some ((k, v) :: kvs, rest)) := by
  intro fuel
  induction fuel with
  | zero =>
    refine ⟨?_, ?_, ?_⟩
    · intro v rest _ hle _
      exact absurd hle (by have := fsize_pos v; omega)
    · intro x xs rest _ _ hle
      simp [fsizeElems] at hle
    · intro k v kvs rest _ _ hle
      simp [fsizeMembers] at hle
  | succ f ih =>
    obtain ⟨ihv, ihe, ihm⟩ := ih
    refine ⟨?_, ?_, ?_⟩
    · intro v rest hwf hle hsep
      cases v with
      | str s =>
        have hin : serialize (Json.str s) ++ rest
            = quoteC :: (escapeStr s ++ quoteC :: rest) := by
          simp [serialize]
        rw [hin]
        simp [parseVal, parseStrBody_escape]
      | num lex =>
        have hne : lex.isEmpty = false := by
          simp [wf, Bool.and_eq_true] at hwf
          simpa using hwf.1
        have hall : ∀ x ∈ lex, isNumChar x = true := by
          simp [wf, Bool.and_eq_true] at hwf
          exact hwf.2
        cases lex with
        | nil => simp at hne
        | cons c l =>
          have hc : isNumChar c = true := hall c (by simp)
          have hcs := numChar_ne c hc
          have hin : serialize (Json.num (c :: l)) ++ rest = c :: (l ++ rest) := by
            simp [serialize]
          have htd := numChar_take_drop l rest (fun d hd => hall d (by simp [hd])) hsep
          rw [hin]
          simp [parseVal, hcs.1, hcs.2.1, hcs.2.2.1, hcs.2.2.2.1, hcs.2.2.2.2.1,
            hcs.2.2.2.2.2, hc, htd.1, htd.2]
      | bool b =>
        cases b with
        | true =>
          have hin : serialize (Json.bool true) ++ rest
              = 't' :: 'r' :: 'u' :: 'e' :: rest := by simp [serialize]
          rw [hin]
          simp +decide [parseVal]
        | false =>
          have hin : serialize (Json.bool false) ++ rest
              = 'f' :: 'a' :: 'l' :: 's' :: 'e' :: rest := by simp [serialize]
          rw [hin]
          simp +decide [parseVal]
      | null =>
        have hin : serialize Json.null ++ rest
            = 'n' :: 'u' :: 'l' :: 'l' :: rest := by simp [serialize]
        rw [hin]
        simp +decide [parseVal]
      | arr xs =>
        cases xs with
        | nil =>
          have hin : serialize (Json.arr []) ++ rest = '[' :: ']' :: rest := by
            simp [serialize, serializeElems]
          rw [hin]
          simp +decide [parseVal]
        | cons x xs =>
          have hwfs : wf x = true ∧ wfElems xs = true := by
            simpa [wf, wfElems, Bool.and_eq_true] using hwf
          obtain ⟨hd, tl, hht, hhne⟩ := serialize_head_ne x hwfs.1
          have hfe : fsizeElems (x :: xs) ≤ f := by
            simp [fsize] at hle
            omega
          have hrec := ihe x xs rest hwfs.1 hwfs.2 hfe
          have hsE : serializeElems (x :: xs) ++ ']' :: rest
              = hd :: (tl ++ serializeElemsTail xs ++ ']' :: rest) := by
            simp [serializeElems, hht]
          have hin : serialize (Json.arr (x :: xs)) ++ rest
              = '[' :: (hd :: (tl ++ serializeElemsTail xs ++ ']' :: rest)) := by
            rw [← hsE]
            simp [serialize]
          rw [hin]
          rw [hsE] at hrec
          simp only [List.append_assoc] at hrec
          simp +decide [parseVal, hhne, hrec]
      | obj kvs =>
        cases kvs with
        | nil =>
          have hin : serialize (Json.obj []) ++ rest = lbraceC :: rbraceC :: rest := by
            simp [serialize, serializeMembers]
          rw [hin]
          simp +decide [parseVal]
        | cons kv kvs =>
          obtain ⟨k, v⟩ := kv
          have hwfs : wf v = true ∧ wfMembers kvs = true := by
            simpa [wf, wfMembers, Bool.and_eq_true] using hwf
          have hfm : fsizeMembers ((k, v) :: kvs) ≤ f := by
            simp [fsize] at hle
            omega
          have hrec := ihm k v kvs rest hwfs.1 hwfs.2 hfm
          have hsM : serializeMembers ((k, v) :: kvs) ++ rbraceC :: rest
              = quoteC :: (escapeStr k ++ quoteC :: ':' :: serialize v
                  ++ serializeMembersTail kvs ++ rbraceC :: rest) := by
            simp [serializeMembers, serializeMember]
          have hin : serialize (Json.obj ((k, v) :: kvs)) ++ rest
              = lbraceC :: (quoteC :: (escapeStr k ++ quoteC :: ':' :: serialize v
                  ++ serializeMembersTail kvs ++ rbraceC :: rest)) := by
            rw [← hsM]
            simp [serialize]
          rw [hin]
          rw [hsM] at hrec
          simp only [List.append_assoc, List.cons_append] at hrec
          simp +decide [parseVal, hrec]
    · intro x xs rest hwx hwxs hle
      have hfx : fsize x ≤ f := by
        have := fsize_pos x
        simp [fsizeElems] at hle
        omega
      have hsep2 : sepOk (serializeElemsTail xs ++ ']' :: rest) := by
        cases xs with
        | nil => simp +decide [serializeElemsTail, sepOk]
        | cons y ys => simp +decide [serializeElemsTail, sepOk]
      have hv := ihv x (serializeElemsTail xs ++ ']' :: rest) hwx hfx hsep2
      have hin : serializeElems (x :: xs) ++ ']' :: rest
          = serialize x ++ (serializeElemsTail xs ++ ']' :: rest) := by
        simp [serializeElems]
      rw [hin, parseElems]
      rw [hv]
      cases xs with
      | nil => simp [serializeElemsTail]
      | cons y ys =>
        have hwys : wf y = true ∧ wfElems ys = true := by
          simpa [wfElems, Bool.and_eq_true] using hwxs
        have hfys : fsizeElems (y :: ys) ≤ f := by
          have := fsize_pos x
          simp [fsizeElems] at hle ⊢
          simp [fsizeElems] at this ⊢
          omega
        have hrec := ihe y ys rest hwys.1 hwys.2 hfys
        have htl : serializeElemsTail (y :: ys) ++ ']' :: rest
            = ',' :: (serializeElems (y :: ys) ++ ']' :: rest) := by
          simp [serializeElemsTail, serializeElems]
        rw [htl]
        simp [hrec]
    · intro k v kvs rest hwv hwkvs hle
      have hfv : fsize v ≤ f := by
        simp [fsizeMembers] at hle
        omega
      have hsep2 : sepOk (serializeMembersTail kvs ++ rbraceC :: rest) := by
        cases kvs with
        | nil => simp +decide [serializeMembersTail, sepOk]
        | cons kv2 kvs2 =>
          obtain ⟨k2, v2⟩ := kv2
          simp +decide [serializeMembersTail, sepOk]
      have hv := ihv v (serializeMembersTail kvs ++ rbraceC :: rest) hwv hfv hsep2
      have hin : serializeMembers ((k, v) :: kvs) ++ rbraceC :: rest
          = quoteC :: (escapeStr k ++ quoteC ::
              (':' :: (serialize v ++ (serializeMembersTail kvs ++ rbraceC :: rest)))) := by
        simp [serializeMembers, serializeMember]
      rw [hin, parseMembers]
      simp +decide only [parseStrBody_escape]
      rw [hv]
      cases kvs with
      | nil =>
        simp +decide [serializeMembersTail]
      | cons kv2 kvs2 =>
        obtain ⟨k2, v2⟩ := kv2
        have hw2 : wf v2 = true ∧ wfMembers kvs2 = true := by
          simpa [wfMembers, Bool.and_eq_true] using hwkvs
        have hf2 : fsizeMembers ((k2, v2) :: kvs2) ≤ f := by
          have := fsize_pos v
          simp [fsizeMembers] at hle ⊢
          omega
        have hrec := ihm k2 v2 kvs2 rest hw2.1 hw2.2 hf2
        have htl : serializeMembersTail ((k2, v2) :: kvs2) ++ rbraceC :: rest
            = ',' :: (serializeMembers ((k2, v2) :: kvs2) ++ rbraceC :: rest) := by
          simp [serializeMembersTail, serializeMembers]
        rw [htl]
        simp [hrec]

/-- Scanning past newline-free text: a pattern whose second character
is a newline cannot match inside a newline-free prefix, so the Python
`replace` copies that prefix unchanged. -/
theorem replaceAll_skip (p0 : Char) (pss rep : List Char) :
    ∀ u v : List Char, nlC ∉ u → headNotNl v →
      replaceAll p0 (nlC :: pss) rep (u ++ v)
        = u ++ replaceAll p0 (nlC :: pss) rep v := by
  intro u
  induction u with
  | nil => intro v _ _; simp
  | cons c u ih =>
    intro v hnl hv
    have hcond : isPre (p0 :: nlC :: pss) (c :: (u ++ v)) = false := by
      cases u with
      | nil =>
        cases v with
        | nil => simp [isPre]
        | cons d v2 =>
          have hd : d ≠ nlC := hv
          simp [isPre]
          intro _ h2
          exact absurd h2.symm hd
      | cons d u2 =>
        have hd : d ≠ nlC := by
          intro he
          exact hnl (by simp [he])
      
        simp [isPre]
        intro _ h2
        exact absurd h2.symm hd
    rw [List.cons_append, replaceAll, if_neg (by simp [hcond])]
    rw [ih v (fun h => hnl (by simp [h])) hv]
    rfl

/-- The Python `replace` walks over a head character different from the
pattern head. -/
theorem replaceAll_cons_ne (p0 : Char) (ps rep : List Char) (c : Char)
    (s : List Char) (h : p0 ≠ c) :
    replaceAll p0 ps rep (c :: s) = c :: replaceAll p0 ps rep s := by
  rw [replaceAll, if_neg (by simp [isPre, h])]

/-- `replace(b"}\n", b"}")` is the identity on newline-free input. -/
theorem replace2_noNl (s : List Char) (h : nlC ∉ s) :
    replaceAll rbraceC [nlC] [rbraceC] s = s := by
  induction s with
  | nil => simp [replaceAll]
  | cons c s ih =>
    have hcond : isPre [rbraceC, nlC] (c :: s) = false := by
      cases s with
      | nil => simp [isPre]
      | cons d s2 =>
        have hd : d ≠ nlC := by
          intro he
          exact h (by simp [he])
        simp [isPre]
        intro _ h2
        exact absurd h2.symm hd
    rw [replaceAll, if_neg (by simp [hcond])]
    rw [ih (fun hh => h (by simp [hh]))]

/-- A well-formed object serializes to `{` body `}` with a
newline-free body. -/
theorem obj_serialize_shape (o : Json) (hobj : isObjB o = true) (hwf : wf o = true) :
    ∃ mem, serialize o = lbraceC :: (mem ++ [rbraceC]) ∧ nlC ∉ mem := by
  cases o with
  | obj kvs =>
    refine ⟨serializeMembers kvs, by simp [serialize], ?_⟩
    have hm : wfMembers kvs = true := by simpa [wf] using hwf
    exact ((serialize_no_nl_all (fsizeMembers kvs)).2.2 kvs (le_refl _) hm).1
  | str s => simp [isObjB] at hobj
  | num lex => simp [isObjB] at hobj
  | bool b => simp [isObjB] at hobj
  | null => simp [isObjB] at hobj
  | arr xs => simp [isObjB] at hobj

/-- Pointwise well-formedness gives list well-formedness. -/
theorem wfElems_of_forall (objs : List Json) (h : ∀ o ∈ objs, wf o = true) :
    wfElems objs = true := by
  induction objs with
  | nil => simp [wfElems]
  | cons o objs ih =>
    simp only [wfElems, Bool.and_eq_true]
    exact ⟨h o (by simp), ih (fun x hx => h x (by simp [hx]))⟩

/-- The serialization of a nonempty list of objects is newline-free and
ends with the final closing brace. -/
theorem serializeElems_obj_split : ∀ objs : List Json, objs ≠ [] →
    (∀ o ∈ objs, isObjB o = true) → (∀ o ∈ objs, wf o = true) →
    ∃ front, serializeElems objs = front ++ [rbraceC] ∧ nlC ∉ front := by
  intro objs
  induction objs with
  | nil => intro h; exact absurd rfl h
  | cons o objs ih =>
    intro _ hobj hwf
    obtain ⟨mem, hser, hmem⟩ := obj_serialize_shape o (hobj o (by simp)) (hwf o (by simp))
    have honl : nlC ∉ serialize o :=
      (serialize_no_nl_all (fsize o)).1 o (le_refl _) (hwf o (by simp))
    cases objs with
    | nil =>
      refine ⟨lbraceC :: mem, ?_, ?_⟩
      · simp [serializeElems, serializeElemsTail, hser]
      · intro hh
        apply honl
        rw [hser]
        simp only [List.mem_cons, List.mem_append] at hh ⊢
        tauto
    | cons o2 objs2 =>
      obtain ⟨front2, hsplit2, hfront2⟩ := ih (by simp)
        (fun x hx => hobj x (by simp at hx ⊢; tauto))
        (fun x hx => hwf x (by simp at hx ⊢; tauto))
      refine ⟨serialize o ++ ',' :: front2, ?_, ?_⟩
      · have : serializeElemsTail (o2 :: objs2) = ',' :: serializeElems (o2 :: objs2) := by
          simp [serializeElemsTail, serializeElems]
        simp only [serializeElems, this, hsplit2]
        simp
      · intro hh
        simp only [List.mem_append, List.mem_cons] at hh
        rcases hh with h | h | h
        · exact honl h
        · exact absurd h (by decide)
        · exact hfront2 h

/-- Stage one of the repair on a newline-joined object stream: every
`}` newline `{` boundary becomes `},{`, turning newline separation into
comma separation and leaving a possible trailing newline. -/
theorem replace1_joinNl : ∀ (objs : List Json) (tl : List Char), objs ≠ [] →
    (∀ o ∈ objs, isObjB o = true) → (∀ o ∈ objs, wf o = true) →
    (tl = [] ∨ tl = [nlC]) →
    replaceAll rbraceC [nlC, lbraceC] [rbraceC, ',', lbraceC]
        (joinNl (objs.map serialize) ++ tl)
      = serializeElems objs ++ tl := by
  intro objs
  induction objs with
  | nil => intro tl h; exact absurd rfl h
  | cons o objs ih =>
    intro tl _ hobj hwf htl
    obtain ⟨mem, hser, hmem⟩ := obj_serialize_shape o (hobj o (by simp)) (hwf o (by simp))
    have hu : nlC ∉ lbraceC :: mem := by
      intro hh
      rcases List.mem_cons.mp hh with h | h
      · exact absurd h (by decide)
      · exact hmem h
    cases objs with
    | nil =>
      have hin : joinNl ((o :: []).map serialize) ++ tl
          = (lbraceC :: mem) ++ (rbraceC :: tl) := by
        simp [joinNl, joinNlTail, hser]
      rw [hin, replaceAll_skip rbraceC [lbraceC] [rbraceC, ',', lbraceC]
        (lbraceC :: mem) (rbraceC :: tl) hu (show rbraceC ≠ nlC from by decide)]
      rcases htl with h | h
      · subst h
        rw [replaceAll, if_neg (by simp [isPre])]
        rw [show replaceAll rbraceC [nlC, lbraceC] [rbraceC, ',', lbraceC] [] = [] from by
          rw [replaceAll]]
        simp [serializeElems, serializeElemsTail, hser]
      · subst h
        rw [replaceAll, if_neg (by simp [isPre])]
        rw [show replaceAll rbraceC [nlC, lbraceC] [rbraceC, ',', lbraceC] [nlC]
            = [nlC] from by
          rw [replaceAll, if_neg (by simp [isPre])]
          rw [show replaceAll rbraceC [nlC, lbraceC] [rbraceC, ',', lbraceC] [] = [] from by
            rw [replaceAll]]]
        simp [serializeElems, serializeElemsTail, hser]
    | cons o2 objs2 =>
      obtain ⟨mem2, hser2, _⟩ := obj_serialize_shape o2
        (hobj o2 (by simp)) (hwf o2 (by simp))
      have hih := ih tl (by simp)
        (fun x hx => hobj x (by simp at hx ⊢; tauto))
        (fun x hx => hwf x (by simp at hx ⊢; tauto)) htl
      have hin : joinNl ((o :: o2 :: objs2).map serialize) ++ tl
          = (lbraceC :: mem) ++ (rbraceC :: nlC :: lbraceC ::
              ((mem2 ++ [rbraceC]) ++ (joinNlTail (objs2.map serialize) ++ tl))) := by
        simp [joinNl, joinNlTail, hser, hser2]
      rw [hin, replaceAll_skip rbraceC [lbraceC] [rbraceC, ',', lbraceC]
        (lbraceC :: mem)
        (rbraceC :: nlC :: lbraceC ::
          ((mem2 ++ [rbraceC]) ++ (joinNlTail (objs2.map serialize) ++ tl)))
        hu (show rbraceC ≠ nlC from by decide)]
      rw [replaceAll, if_pos (by simp [isPre])]
      have harg : joinNl ((o2 :: objs2).map serialize) ++ tl
          = lbraceC :: ((mem2 ++ [rbraceC]) ++ (joinNlTail (objs2.map serialize) ++ tl)) := by
        simp [joinNl, hser2]
      rw [harg] at hih
      rw [replaceAll_cons_ne _ _ _ _ _ (by decide)] at hih
      have hX : serializeElems (o2 :: objs2) ++ tl
          = lbraceC :: ((mem2 ++ [rbraceC]) ++ (serializeElemsTail objs2 ++ tl)) := by
        simp [serializeElems, hser2]
      rw [hX] at hih
      rw [List.cons.injEq] at hih
      have hih2 := hih.2
      rw [show (nlC :: lbraceC ::
            ((mem2 ++ [rbraceC]) ++ (joinNlTail (objs2.map serialize) ++ tl))).drop
              ([nlC, lbraceC].length)
          = (mem2 ++ [rbraceC]) ++ (joinNlTail (objs2.map serialize) ++ tl) from by simp]
      rw [hih2]
      have hY : serializeElems (o :: o2 :: objs2) ++ tl
          = (lbraceC :: mem) ++ (rbraceC :: ',' :: lbraceC ::
              ((mem2 ++ [rbraceC]) ++ (serializeElemsTail objs2 ++ tl))) := by
        simp [serializeElems, serializeElemsTail, hser, hser2]
      rw [hY]
      simp

/-- The full repair of `fetch_metadata` turns a newline-joined stream
of well-formed objects (with or without trailing newline) into exactly
the compact serialization of the JSON array of those objects. -/
theorem repair_stream (objs : List Json) (tl : List Char) (hne : objs ≠ [])
    (hobj : ∀ o ∈ objs, isObjB o = true) (hwf : ∀ o ∈ objs, wf o = true)
    (htl : tl = [] ∨ tl = [nlC]) :
    repair (joinNl (objs.map serialize) ++ tl) = serialize (Json.arr objs) := by
  rw [repair, replace1_joinNl objs tl hne hobj hwf htl]
  have hnl : nlC ∉ serializeElems objs := by
    have hwfe := wfElems_of_forall objs hwf
    exact ((serialize_no_nl_all (fsizeElems objs)).2.1 objs (le_refl _) hwfe).1
  rcases htl with h | h
  · subst h
    rw [List.append_nil, replace2_noNl _ hnl]
    simp [serialize]
  · subst h
    obtain ⟨front, hsplit, hfront⟩ := serializeElems_obj_split objs hne hobj hwf
    rw [hsplit]
    rw [show front ++ [rbraceC] ++ [nlC] = front ++ (rbraceC :: nlC :: []) from by simp]
    rw [replaceAll_skip rbraceC [] [rbraceC] front (rbraceC :: nlC :: [])
      hfront (show rbraceC ≠ nlC from by decide)]
    rw [replaceAll, if_pos (by simp [isPre])]
    rw [show ((nlC : Char) :: []).drop ([nlC].length) = [] from by simp]
    rw [show replaceAll rbraceC [nlC] [rbraceC] [] = [] from by rw [replaceAll]]
    rw [show front ++ ([rbraceC] ++ []) = front ++ [rbraceC] from by simp, ← hsplit]
    simp [serialize]

/-- On a well-formed compact serialization, the `json.loads` model
returns exactly the serialized value. -/
theorem json_loads_serialize (v : Json) (hwf : wf v = true) :
    json_loads (serialize v) = some v := by
  unfold json_loads
  have hfs : fsize v ≤ (serialize v).length + 1 := by
    have := (fsize_le_len_all (fsize v)).1 v (le_refl _) hwf
    omega
  have hp := (parse_serialize_all ((serialize v).length + 1)).1 v [] hwf hfs trivial
  rw [List.append_nil] at hp
  rw [hp]
  simp

/-- On a stream holding a second object after the first, the
`json.loads` model fails with extra data, exactly as Python's
`json.loads` raises `JSONDecodeError` on `yt-dlp` playlist output. -/
theorem json_loads_multi_none (o1 o2 : Json) (rest2 : List Char)
    (hwf1 : wf o1 = true) (hobj2 : isObjB o2 = true) (hwf2 : wf o2 = true) :
    json_loads (serialize o1 ++ (nlC :: (serialize o2 ++ rest2))) = none := by
  unfold json_loads
  have hfs : fsize o1 ≤ (serialize o1 ++ (nlC :: (serialize o2 ++ rest2))).length + 1 := by
    have h1 := (fsize_le_len_all (fsize o1)).1 o1 (le_refl _) hwf1
    have h2 : (serialize o1).length
        ≤ (serialize o1 ++ (nlC :: (serialize o2 ++ rest2))).length := by
      simp
    omega
  have hp := (parse_serialize_all
      ((serialize o1 ++ (nlC :: (serialize o2 ++ rest2))).length + 1)).1
    o1 (nlC :: (serialize o2 ++ rest2)) hwf1 hfs
    (show isNumChar nlC = false from by decide)
  rw [hp]
  obtain ⟨mem2, hser2, _⟩ := obj_serialize_shape o2 hobj2 hwf2
  have hall : (nlC :: (serialize o2 ++ rest2)).all isWsChar = false := by
    rw [List.all_eq_false]
    refine ⟨lbraceC, ?_, by decide⟩
    rw [hser2]
    simp
  simp [hall]

/-- Claim C1: for every downloader stdout byte stream that is a
concatenation of well-formed JSON objects separated by newlines
(`{...}\n{...}\n{...}`, with or without a trailing newline),
`fetch_metadata` returns the ordered list of exactly the original
objects — equal in count and field content and in emission order — by
first failing the single-document parse, then repairing the stream
(replacing `}\n{` boundaries by `},{`, collapsing the trailing `}\n`
to `}`, wrapping in `[`..`]`) and parsing it as a JSON array. -/
theorem fetch_metadata_playlist_roundtrip (url : List Char) (objs : List Json)
    (tl : List Char) (hlen : 2 ≤ objs.length)
    (hobj : ∀ o ∈ objs, isObjB o = true)
    (hwf : ∀ o ∈ objs, wf o = true)
    (htl : tl = [] ∨ tl = [nlC]) :
    fetch_metadata url ⟨0, joinNl (objs.map serialize) ++ tl⟩
      = Except.ok (Json.arr objs) := by
  cases objs with
  | nil => simp at hlen
  | cons o1 rest =>
    cases rest with
    | nil => simp at hlen
    | cons o2 objs2 =>
      have hstream : joinNl ((o1 :: o2 :: objs2).map serialize) ++ tl
          = serialize o1 ++ (nlC :: (serialize o2
              ++ (joinNlTail (objs2.map serialize) ++ tl))) := by
        simp [joinNl, joinNlTail]
      have h1 : json_loads (joinNl ((o1 :: o2 :: objs2).map serialize) ++ tl) = none := by
        rw [hstream]
        exact json_loads_multi_none o1 o2 _ (hwf o1 (by simp)) (hobj o2 (by simp))
          (hwf o2 (by simp))
      have h2 : json_loads (repair (joinNl ((o1 :: o2 :: objs2).map serialize) ++ tl))
          = some (Json.arr (o1 :: o2 :: objs2)) := by
        rw [repair_stream _ tl (by simp) hobj hwf htl]
        apply json_loads_serialize
        have : wfElems (o1 :: o2 :: objs2) = true := wfElems_of_forall _ hwf
        simpa [wf] using this
      unfold fetch_metadata
      rw [if_pos rfl, h1, h2]

/-- Concrete instance of claim C1: a two-object stream with trailing
newline satisfies every hypothesis and yields the two records in
order. -/
theorem fetch_metadata_playlist_roundtrip_witness :
    (2 ≤ ([Json.obj [(['a'], Json.str ['b'])], Json.obj []] : List Json).length)
    ∧ (∀ o ∈ ([Json.obj [(['a'], Json.str ['b'])], Json.obj []] : List Json),
        isObjB o = true)
    ∧ (∀ o ∈ ([Json.obj [(['a'], Json.str ['b'])], Json.obj []] : List Json),
        wf o = true)
    ∧ fetch_metadata ['u']
        ⟨0, joinNl (([Json.obj [(['a'], Json.str ['b'])], Json.obj []]
            : List Json).map serialize) ++ [nlC]⟩
      = Except.ok (Json.arr [Json.obj [(['a'], Json.str ['b'])], Json.obj []]) :=
  ⟨by decide, by decide, by decide,
    fetch_metadata_playlist_roundtrip ['u'] _ [nlC] (by decide) (by decide)
      (by decide) (Or.inr rfl)⟩

/-- Helper: writing one file leaves every other path unchanged. -/
theorem setFile_fs_ne (w : World) (p q : LChar) (d : FileData) (h : q ≠ p) :
    (w.setFile p d).fs q = w.fs q := by
  simp [World.setFile, h]

/-- Helper: reading back the written file. -/
theorem setFile_fs_eq (w : World) (p : LChar) (d : FileData) :
    (w.setFile p d).fs p = some d := by
  simp [World.setFile]

/-- Claim C2 (evaluation of the code at the failing input): applying
`set_m4a_metadata` with the specification's example record to a fresh
`track.m4a` sets Title, Artist, Date (full `YYYYMMDD` string), Comment
and Description as claimed, but the final file carries NO embedded
cover: `set_cover` does save the fetched JPEG into the file, yet the
closing `tags.save(file_path)` (utilities.py line 226) rewrites the
file from the container loaded at line 216 — before `set_cover` ran —
whose `covr` list is the original (empty) one.  The claimed single
embedded JPEG cover equal to the fetched bytes is therefore absent. -/
theorem set_m4a_metadata_example_run :
    (set_m4a_metadata exampleHttp trackPath exampleMd exampleWorld).result
      = Except.ok ()
    ∧ (set_m4a_metadata exampleHttp trackPath exampleMd exampleWorld).world.fs trackPath
      = some (FileData.mp4
          { nam := some (("Song A").data), art := some (("Artist X").data),
            day := some (("20230115").data),
            cmt := some (("https://example.com/v").data),
            desc := some (("desc").data), covr := none }) := by
  constructor
  · rfl
  · decide

/-- Claim C4: for every file path whose (lower-cased, as the code
computes it) extension is none of `.m4a`, `.mp3`, `.opus`, the
`--set-m4a-metadata` dispatch reports `Unsupported file format: {ext}`
naming that extension, leaves the file system untouched and performs
no tag-library call (its effect trace is empty). -/
theorem unsupported_ext_no_mutation (http : LChar → Option Bytes) (fp : LChar)
    (md : List (LChar × LChar)) (w : World)
    (h : strLower (pathSuffix fp) ∉ [(".m4a").data, (".mp3").data, (".opus").data]) :
    (write_tags_dispatch http fp md w).result
      = TagWriteResult.unsupported (strLower (pathSuffix fp))
    ∧ (write_tags_dispatch http fp md w).world = w
    ∧ (write_tags_dispatch http fp md w).trace = [] := by
  have h1 : ¬ strLower (pathSuffix fp) = (".m4a").data := by
    intro he; exact h (by simp [he])
  have h2 : ¬ strLower (pathSuffix fp) = (".opus").data := by
    intro he; exact h (by simp [he])
  unfold write_tags_dispatch
  rw [if_neg h1, if_neg h2]
  exact ⟨rfl, rfl, rfl⟩

/-- Concrete instance of claim C4: a `.txt` path is reported
unsupported with no effect. -/
theorem unsupported_ext_no_mutation_witness :
    (strLower (pathSuffix (("file.txt").data))
        ∉ [(".m4a").data, (".mp3").data, (".opus").data])
    ∧ (write_tags_dispatch exampleHttp (("file.txt").data) exampleMd exampleWorld).result
      = TagWriteResult.unsupported (strLower (pathSuffix (("file.txt").data))) :=
  ⟨by decide,
   (unsupported_ext_no_mutation exampleHttp (("file.txt").data) exampleMd exampleWorld
     (by decide)).1⟩

/-- Claim C5 (amended): in `youtube_music_metadata/utilities.py`, a
non-zero downloader exit code makes `fetch_metadata`,
`download_audio_with_metadata` and `download_thumbnail` raise an
`Exception` whose message embeds the URL and the exit code, with no
further processing: `fetch_metadata` raises for every stdout content
without attempting a parse, and the download functions perform no
effect after the subprocess call (their whole trace is the `mkdir`
followed by the subprocess run). -/
theorem downloader_nonzero_exit_raises (url stdout : List Char) (rc : Int)
    (fpo1 fpo2 : Option LChar) (h : rc ≠ 0) :
    fetch_metadata url ⟨rc, stdout⟩ = Except.error (fetchFailMsg url rc)
    ∧ (∃ a b, fetchFailMsg url rc = a ++ url ++ b)
    ∧ (∃ a b, fetchFailMsg url rc = a ++ intChars rc ++ b)
    ∧ (download_audio_with_metadata rc url fpo1).1
        = Except.error (PyErr.exn (downloadFailMsg url rc))
    ∧ (download_audio_with_metadata rc url fpo1).2
        = [Eff.mkdirParents (parentOf (fpo1.getD defaultTemplate)),
           Eff.subprocessRun (audioCmd (fpo1.getD defaultTemplate) url)]
    ∧ (∃ a b, downloadFailMsg url rc = a ++ url ++ b)
    ∧ (∃ a b, downloadFailMsg url rc = a ++ intChars rc ++ b)
    ∧ (download_thumbnail rc url fpo2).1
        = Except.error (PyErr.exn (downloadFailMsg url rc))
    ∧ (download_thumbnail rc url fpo2).2
        = [Eff.mkdirParents (parentOf (fpo2.getD defaultTemplate)),
           Eff.subprocessRun (thumbCmd (fpo2.getD defaultTemplate) url)] := by
  refine ⟨?_, ?_, ?_, ?_, rfl, ?_, ?_, ?_, rfl⟩
  · unfold fetch_metadata
    rw [if_neg h]
  · exact ⟨("Subprocess call failed for url `").data,
      ("` when attempting to write metadata with code: ").data ++ intChars rc,
      by simp [fetchFailMsg]⟩
  · exact ⟨("Subprocess call failed for url `").data ++ url
        ++ ("` when attempting to write metadata with code: ").data, [],
      by simp [fetchFailMsg]⟩
  · unfold download_audio_with_metadata
    rw [if_neg h]
  · exact ⟨("Subprocess call failed for url ").data,
      (" when attempting to download video with metadata with code: ").data
        ++ intChars rc,
      by simp [downloadFailMsg]⟩
  · exact ⟨("Subprocess call failed for url ").data ++ url
        ++ (" when attempting to download video with metadata with code: ").data, [],
      by simp [downloadFailMsg]⟩
  · unfold download_thumbnail
    rw [if_neg h]

/-- Counterexample to claim C5 as stated: the legacy copies of the
three functions in `src/__main__.py` (cited by the claim's sources) do
not raise on a non-zero exit code — `fetch_metadata` there only logs
the failure and returns the initial empty dict normally. -/
theorem fetch_metadata_legacy_no_raise :
    fetch_metadata_legacy ⟨1, ['x']⟩ = Except.ok (Json.obj [])
    ∧ isRaisedE (fetch_metadata_legacy ⟨1, ['x']⟩) = false := by
  constructor <;> rfl

/-- Concrete instance of claim C5 (amended): exit code 1. -/
theorem downloader_nonzero_exit_raises_witness :
    ((1 : Int) ≠ 0)
    ∧ fetch_metadata ['u'] ⟨1, ['x']⟩ = Except.error (fetchFailMsg ['u'] 1) :=
  ⟨by decide,
   (downloader_nonzero_exit_raises ['u'] ['x'] 1 none none (by decide)).1⟩

/-- Claim C10: both download functions create the parent directory of
the resolved output path (parents=True, so with all missing ancestors)
strictly before invoking the external downloader, and this happens
also in runs whose exit code is non-zero, which then raise — so the
error path has already performed the directory side effect. -/
theorem download_mkdir_before_subprocess (rc : Int) (url : LChar)
    (fpo1 fpo2 : Option LChar) (h : rc ≠ 0) :
    (download_audio_with_metadata rc url fpo1).2
      = [Eff.mkdirParents (parentOf (fpo1.getD defaultTemplate)),
         Eff.subprocessRun (audioCmd (fpo1.getD defaultTemplate) url)]
    ∧ isRaised (download_audio_with_metadata rc url fpo1).1 = true
    ∧ (download_thumbnail rc url fpo2).2
      = [Eff.mkdirParents (parentOf (fpo2.getD defaultTemplate)),
         Eff.subprocessRun (thumbCmd (fpo2.getD defaultTemplate) url)]
    ∧ isRaised (download_thumbnail rc url fpo2).1 = true := by
  refine ⟨rfl, ?_, rfl, ?_⟩
  · unfold download_audio_with_metadata
    rw [if_neg h]
    rfl
  · unfold download_thumbnail
    rw [if_neg h]
    rfl

/-- Concrete instance of claim C10: a failing run (exit code 1) still
records the parent `mkdir` first in its trace. -/
theorem download_mkdir_before_subprocess_witness :
    ((1 : Int) ≠ 0)
    ∧ (download_audio_with_metadata 1 ['u'] none).2
      = [Eff.mkdirParents (parentOf defaultTemplate),
         Eff.subprocessRun (audioCmd defaultTemplate ['u'])] :=
  ⟨by decide, (download_mkdir_before_subprocess 1 ['u'] none none (by decide)).1⟩

/-- Claim C9: `set_cover` selects its strategy solely by
`file_path.endswith(".mp3")`.  Every non-`.mp3` path — including the
default `cover.jpg` path used when no path is given, `.opus` paths and
arbitrary non-audio paths — goes to the MP4 branch, which opens the
file via the MP4 tag library (an `mp4Load` appears in the trace) and,
when the file really is an MP4 container, replaces its cover list;
`.mp3` paths go to the ID3 branch; there is no third branch and no
extension rejection inside `set_cover`. -/
theorem set_cover_dispatch_mp3_only (b : Bytes) (cover : LChar)
    (fpo : Option LChar) (w : World) :
    (endsWith (fpo.getD scratchPath) (".mp3").data = false →
      Eff.mp4Load (fpo.getD scratchPath)
          ∈ (set_cover (fun _ => some b) cover fpo w).trace
      ∧ ∀ m : Mp4Tags, fpo.getD scratchPath ≠ scratchPath →
          w.fs (fpo.getD scratchPath) = some (FileData.mp4 m) →
          (set_cover (fun _ => some b) cover fpo w).world.fs (fpo.getD scratchPath)
            = some (FileData.mp4 { m with covr := some [b] }))
    ∧ (endsWith (fpo.getD scratchPath) (".mp3").data = true →
      Eff.mp3Load (fpo.getD scratchPath)
          ∈ (set_cover (fun _ => some b) cover fpo w).trace) := by
  constructor
  · intro hmp3
    constructor
    · cases h2 : (w.setFile scratchPath (FileData.raw b)).fs (fpo.getD scratchPath) with
      | none => simp [set_cover, hmp3, h2]
      | some fd => cases fd <;> simp [set_cover, hmp3, h2]
    · intro m hne hfs
      have h2 : (w.setFile scratchPath (FileData.raw b)).fs (fpo.getD scratchPath)
          = some (FileData.mp4 m) := by
        rw [setFile_fs_ne w scratchPath _ _ hne]
        exact hfs
      simp [set_cover, hmp3, h2, setFile_fs_eq]
  · intro hmp3
    cases h2 : (w.setFile scratchPath (FileData.raw b)).fs (fpo.getD scratchPath) with
    | none => simp [set_cover, hmp3, h2]
    | some fd => cases fd <;> simp [set_cover, hmp3, h2]

/-- Concrete instance of claim C9: an `.opus` path does not end in
`.mp3`, and `set_cover` records an MP4-library open for it. -/
theorem set_cover_dispatch_mp3_only_witness :
    (endsWith ((some opusPath).getD scratchPath) (".mp3").data = false)
    ∧ Eff.mp4Load ((some opusPath).getD scratchPath)
        ∈ (set_cover (fun _ => some exampleBytes) (("c.png").data)
            (some opusPath) opusWorld).trace :=
  ⟨by decide,
   ((set_cover_dispatch_mp3_only exampleBytes (("c.png").data) (some opusPath)
       opusWorld).1 (by decide)).1⟩

/-- Counterexample to claim C8 as stated: in the MP4 branch the file
ends up byte-identical whether the thumbnail URL ends in `.jpg` or in
`.png` (the computed `cover_format` string is discarded by the
`bytes(albumart)` conversion before `covr` is stored), so the format
designation recorded in the file cannot be the URL-determined one the
claim requires — even though the two URL-derived designations
differ. -/
theorem mp4_cover_format_not_recorded_cex :
    (set_cover constHttp (("a.jpg").data) (some trackPath) exampleWorld).world.fs trackPath
      = (set_cover constHttp (("a.png").data) (some trackPath) exampleWorld).world.fs trackPath
    ∧ coverFormatMp4 (("a.jpg").data) ≠ coverFormatMp4 (("a.png").data) := by
  constructor
  · decide
  · decide

/-- Claim C8 (amended): the MIME/format designation `set_cover`
computes is a pure function of the cover URL's extension —
`.jpg`/`.jpeg` give the JPEG designation, everything else the PNG one —
and the fetched bytes are never inspected: the `APIC` frame written in
the MP3 branch carries `coverMime cover` for every possible byte
payload `b`.  (Only the MP3 branch records the designation; the MP4
branch computes `coverFormatMp4` but discards it with
`bytes(albumart)`.) -/
theorem cover_format_pure_ext (cover : LChar) (b : Bytes) (w : World) (fp : LChar)
    (t : Id3Tags) (hmp3 : endsWith fp (".mp3").data = true) (hfp : fp ≠ scratchPath)
    (hfs : w.fs fp = some (FileData.mp3 t)) :
    ((endsWith cover (".jpg").data || endsWith cover (".jpeg").data) = true →
      coverMime cover = ("image/jpg").data
      ∧ coverFormatMp4 cover = ("MP4Cover.FORMAT_JPEG").data)
    ∧ ((endsWith cover (".jpg").data || endsWith cover (".jpeg").data) = false →
      coverMime cover = ("image/png").data
      ∧ coverFormatMp4 cover = ("MP4Cover.FORMAT_PNG").data)
    ∧ (set_cover (fun _ => some b) cover (some fp) w).world.fs fp
      = some (FileData.mp3 (t.addApic ⟨coverMime cover, ("Cover").data, b⟩)) := by
  refine ⟨fun hc => ?_, fun hc => ?_, ?_⟩
  · constructor <;> simp [coverMime, coverFormatMp4, hc]
  · constructor <;> simp [coverMime, coverFormatMp4, hc]
  · have h2 : (w.setFile scratchPath (FileData.raw b)).fs fp
        = some (FileData.mp3 t) := by
      rw [setFile_fs_ne w scratchPath fp _ hfp]
      exact hfs
    simp [set_cover, hmp3, h2, setFile_fs_eq]

/-- Concrete instance of claim C8 (amended): a `.jpg` thumbnail URL on
an MP3 file. -/
theorem cover_format_pure_ext_witness :
    (endsWith mp3Path (".mp3").data = true)
    ∧ (mp3Path ≠ scratchPath)
    ∧ mp3World.fs mp3Path = some (FileData.mp3 ⟨[]⟩)
    ∧ (set_cover (fun _ => some exampleBytes) (("c.jpg").data)
          (some mp3Path) mp3World).world.fs mp3Path
      = some (FileData.mp3 (Id3Tags.addApic ⟨[]⟩
          ⟨coverMime (("c.jpg").data), ("Cover").data, exampleBytes⟩)) :=
  ⟨by decide, by decide, by decide,
   (cover_format_pure_ext (("c.jpg").data) exampleBytes mp3World mp3Path ⟨[]⟩
     (by decide) (by decide) (by decide)).2.2⟩

/-- Counterexample to claim C7 as stated: on a supported `.opus` file,
a metadata record missing the required `thumbnail` field is written
successfully — `set_opus_metadata` never reads `thumbnail` (cover
embedding is unimplemented for Opus), so no error is raised. -/
theorem opus_missing_thumbnail_ok_cex :
    dictGet exampleMd5 (("thumbnail").data) = none
    ∧ (set_opus_metadata opusPath exampleMd5 opusWorld).result = Except.ok () := by
  constructor
  · rfl
  · rfl

/-- Claim C7 (amended): no required field is ever defaulted.  For
`.m4a` files, a record missing any one of the six fields `title`,
`channel`, `upload_date`, `webpage_url`, `description`, `thumbnail`
makes `set_m4a_metadata` raise (the `KeyError` fires before any save
or scratch write) and leaves the whole world unchanged.  For `.opus`
files the same holds for the five fields the strategy consumes
(`thumbnail` is not one of them). -/
theorem missing_field_errors (http : LChar → Option Bytes) (fp : LChar)
    (md : List (LChar × LChar)) (w : World) :
    ((dictGet md (("title").data) = none
      ∨ dictGet md (("channel").data) = none
      ∨ dictGet md (("upload_date").data) = none
      ∨ dictGet md (("webpage_url").data) = none
      ∨ dictGet md (("description").data) = none
      ∨ dictGet md (("thumbnail").data) = none) →
      isRaised (set_m4a_metadata http fp md w).result = true
      ∧ (set_m4a_metadata http fp md w).world = w)
    ∧ ((dictGet md (("title").data) = none
      ∨ dictGet md (("channel").data) = none
      ∨ dictGet md (("upload_date").data) = none
      ∨ dictGet md (("webpage_url").data) = none
      ∨ dictGet md (("description").data) = none) →
      isRaised (set_opus_metadata fp md w).result = true
      ∧ (set_opus_metadata fp md w).world = w) := by
  constructor
  · intro hdisj
    cases hw : w.fs fp with
    | none => simp [set_m4a_metadata, hw, isRaised]
    | some fd =>
      cases fd with
      | mp3 t => simp [set_m4a_metadata, hw, isRaised]
      | opus t => simp [set_m4a_metadata, hw, isRaised]
      | raw bb => simp [set_m4a_metadata, hw, isRaised]
      | mp4 t =>
        cases h1 : dictGet md (("title").data) with
        | none => simp [set_m4a_metadata, hw, h1, isRaised]
        | some v1 =>
        cases h2 : dictGet md (("channel").data) with
        | none => simp [set_m4a_metadata, hw, h1, h2, isRaised]
        | some v2 =>
        cases h3 : dictGet md (("upload_date").data) with
        | none => simp [set_m4a_metadata, hw, h1, h2, h3, isRaised]
        | some v3 =>
        cases h4 : dictGet md (("webpage_url").data) with
        | none => simp [set_m4a_metadata, hw, h1, h2, h3, h4, isRaised]
        | some v4 =>
        cases h5 : dictGet md (("description").data) with
        | none => simp [set_m4a_metadata, hw, h1, h2, h3, h4, h5, isRaised]
        | some v5 =>
        cases h6 : dictGet md (("thumbnail").data) with
        | none => simp [set_m4a_metadata, hw, h1, h2, h3, h4, h5, h6, isRaised]
        | some v6 =>
          rcases hdisj with h | h | h | h | h | h <;> simp_all
  · intro hdisj
    cases hw : w.fs fp with
    | none => simp [set_opus_metadata, hw, isRaised]
    | some fd =>
      cases fd with
      | mp3 t => simp [set_opus_metadata, hw, isRaised]
      | mp4 t => simp [set_opus_metadata, hw, isRaised]
      | raw bb => simp [set_opus_metadata, hw, isRaised]
      | opus t =>
        cases h1 : dictGet md (("title").data) with
        | none => simp [set_opus_metadata, hw, h1, isRaised]
        | some v1 =>
        cases h2 : dictGet md (("channel").data) with
        | none => simp [set_opus_metadata, hw, h1, h2, isRaised]
        | some v2 =>
        cases h3 : dictGet md (("upload_date").data) with
        | none => simp [set_opus_metadata, hw, h1, h2, h3, isRaised]
        | some v3 =>
        cases h4 : dictGet md (("webpage_url").data) with
        | none => simp [set_opus_metadata, hw, h1, h2, h3, h4, isRaised]
        | some v4 =>
        cases h5 : dictGet md (("description").data) with
        | none => simp [set_opus_metadata, hw, h1, h2, h3, h4, h5, isRaised]
        | some v5 =>
          rcases hdisj with h | h | h | h | h <;> simp_all

/-- Concrete instance of claim C7 (amended): an empty record on an
`.m4a` file raises and changes nothing. -/
theorem missing_field_errors_witness :
    dictGet ([] : List (LChar × LChar)) (("title").data) = none
    ∧ isRaised (set_m4a_metadata exampleHttp trackPath [] exampleWorld).result = true
    ∧ (set_m4a_metadata exampleHttp trackPath [] exampleWorld).world = exampleWorld :=
  ⟨rfl,
   ((missing_field_errors exampleHttp trackPath [] exampleWorld).1 (Or.inl rfl)).1,
   ((missing_field_errors exampleHttp trackPath [] exampleWorld).1 (Or.inl rfl)).2⟩

/-- Helper for the idempotence claim: one successful `set_m4a_metadata`
run writes the five text fields and keeps the ORIGINAL cover list of
the file (the final save persists the container loaded before
`set_cover` ran). -/
theorem set_m4a_metadata_success_run (http : LChar → Option Bytes) (fp : LChar)
    (md : List (LChar × LChar)) (w : World) (t0 : Mp4Tags)
    (title channel upload wurl descr thumb : LChar) (b : Bytes)
    (hfs : w.fs fp = some (FileData.mp4 t0))
    (h1 : dictGet md (("title").data) = some title)
    (h2 : dictGet md (("channel").data) = some channel)
    (h3 : dictGet md (("upload_date").data) = some upload)
    (h4 : dictGet md (("webpage_url").data) = some wurl)
    (h5 : dictGet md (("description").data) = some descr)
    (h6 : dictGet md (("thumbnail").data) = some thumb)
    (hhttp : http thumb = some b)
    (hmp3 : endsWith fp (".mp3").data = false)
    (hfp : fp ≠ scratchPath) :
    (set_m4a_metadata http fp md w).result = Except.ok ()
    ∧ (set_m4a_metadata http fp md w).world.fs fp
      = some (FileData.mp4
          { t0 with
            nam := some title, art := some channel, day := some upload,
            cmt := some wurl, desc := some descr }) := by
  have hsc : (w.setFile scratchPath (FileData.raw b)).fs fp
      = some (FileData.mp4 t0) := by
    rw [setFile_fs_ne _ _ _ _ hfp]
    exact hfs
  constructor
  · simp [set_m4a_metadata, hfs, h1, h2, h3, h4, h5, h6, set_cover, hhttp,
      hmp3, hsc]
  · simp [set_m4a_metadata, hfs, h1, h2, h3, h4, h5, h6, set_cover, hhttp,
      hmp3, hsc, setFile_fs_eq]

/-- Counterexample to claim C6 as stated: starting from a fresh
`track.m4a` with no embedded cover, running the tag-writing operation
twice with the specification's example record leaves the file with
ZERO embedded pictures — not exactly one — because each run's final
save restores the cover list loaded before `set_cover`. -/
theorem cover_not_exactly_one_cex :
    coverCount (set_m4a_metadata exampleHttp trackPath exampleMd
        (set_m4a_metadata exampleHttp trackPath exampleMd exampleWorld).world).world
        trackPath
      = some 0
    ∧ (some 0 : Option Nat) ≠ some 1 := by
  constructor
  · decide
  · decide

/-- Claim C6 (amended): for an MP4 media file (path not ending in
`.mp3` and distinct from the scratch cover path) and a record with all
six fields, two successive `set_m4a_metadata` runs both succeed and
the media file's tag state after the second run equals the state after
the first — tags are idempotent and cover images do not accumulate;
however the embedded picture list stays whatever the original file
had (the thumbnail cover is overwritten by the final save), so
"exactly one embedded picture" is not guaranteed. -/
theorem set_m4a_metadata_idempotent (http : LChar → Option Bytes) (fp : LChar)
    (md : List (LChar × LChar)) (w : World) (t0 : Mp4Tags)
    (title channel upload wurl descr thumb : LChar) (b : Bytes)
    (hfs : w.fs fp = some (FileData.mp4 t0))
    (h1 : dictGet md (("title").data) = some title)
    (h2 : dictGet md (("channel").data) = some channel)
    (h3 : dictGet md (("upload_date").data) = some upload)
    (h4 : dictGet md (("webpage_url").data) = some wurl)
    (h5 : dictGet md (("description").data) = some descr)
    (h6 : dictGet md (("thumbnail").data) = some thumb)
    (hhttp : http thumb = some b)
    (hmp3 : endsWith fp (".mp3").data = false)
    (hfp : fp ≠ scratchPath) :
    (set_m4a_metadata http fp md w).result = Except.ok ()
    ∧ (set_m4a_metadata http fp md
        (set_m4a_metadata http fp md w).world).result = Except.ok ()
    ∧ (set_m4a_metadata http fp md
        (set_m4a_metadata http fp md w).world).world.fs fp
      = (set_m4a_metadata http fp md w).world.fs fp := by
  obtain ⟨hr1, hw1⟩ := set_m4a_metadata_success_run http fp md w t0
    title channel upload wurl descr thumb b hfs h1 h2 h3 h4 h5 h6 hhttp hmp3 hfp
  obtain ⟨hr2, hw2⟩ := set_m4a_metadata_success_run http fp md
    (set_m4a_metadata http fp md w).world
    { t0 with
      nam := some title, art := some channel, day := some upload,
      cmt := some wurl, desc := some descr }
    title channel upload wurl descr thumb b hw1 h1 h2 h3 h4 h5 h6 hhttp hmp3 hfp
  refine ⟨hr1, hr2, ?_⟩
  rw [hw2, hw1]

/-- Concrete instance of claim C6 (amended): the example record applied
twice to a fresh `track.m4a`. -/
theorem set_m4a_metadata_idempotent_witness :
    exampleWorld.fs trackPath = some (FileData.mp4 {})
    ∧ (endsWith trackPath (".mp3").data = false)
    ∧ (set_m4a_metadata exampleHttp trackPath exampleMd
        (set_m4a_metadata exampleHttp trackPath exampleMd exampleWorld).world).world.fs
        trackPath
      = (set_m4a_metadata exampleHttp trackPath exampleMd exampleWorld).world.fs
        trackPath :=
  ⟨by decide, by decide,
   (set_m4a_metadata_idempotent exampleHttp trackPath exampleMd exampleWorld {}
     (("Song A").data) (("Artist X").data) (("20230115").data)
     (("https://example.com/v").data) (("desc").data)
     (("https://example.com/cover.jpg").data) exampleBytes
     (by decide) rfl rfl rfl rfl rfl rfl (by decide) (by decide) (by decide)).2.2⟩

/-- Helper for the atomicity claim: when `set_cover` raises, the only
file it may have written is the scratch `cover.jpg`; every other path
is untouched. -/
theorem set_cover_error_fs (http : LChar → Option Bytes) (cover : LChar)
    (fpo : Option LChar) (w : World) (q : LChar) (hq : q ≠ scratchPath)
    (e : PyErr) (herr : (set_cover http cover fpo w).result = Except.error e) :
    (set_cover http cover fpo w).world.fs q = w.fs q := by
  cases hh : http cover with
  | none => simp [set_cover, hh]
  | some b =>
    cases hmp3 : endsWith (fpo.getD scratchPath) (".mp3").data with
    | true =>
      cases h2 : (w.setFile scratchPath (FileData.raw b)).fs (fpo.getD scratchPath) with
      | none => simp [set_cover, hh, hmp3, h2, setFile_fs_ne w scratchPath q _ hq]
      | some fd =>
        cases fd with
        | mp3 t =>
          exfalso
          simp [set_cover, hh, hmp3, h2] at herr
        | mp4 t => simp [set_cover, hh, hmp3, h2, setFile_fs_ne w scratchPath q _ hq]
        | opus t => simp [set_cover, hh, hmp3, h2, setFile_fs_ne w scratchPath q _ hq]
        | raw bb => simp [set_cover, hh, hmp3, h2, setFile_fs_ne w scratchPath q _ hq]
    | false =>
      cases h2 : (w.setFile scratchPath (FileData.raw b)).fs (fpo.getD scratchPath) with
      | none => simp [set_cover, hh, hmp3, h2, setFile_fs_ne w scratchPath q _ hq]
      | some fd =>
        cases fd with
        | mp4 t =>
          exfalso
          simp [set_cover, hh, hmp3, h2] at herr
        | mp3 t => simp [set_cover, hh, hmp3, h2, setFile_fs_ne w scratchPath q _ hq]
        | opus t => simp [set_cover, hh, hmp3, h2, setFile_fs_ne w scratchPath q _ hq]
        | raw bb => simp [set_cover, hh, hmp3, h2, setFile_fs_ne w scratchPath q _ hq]

/-- Counterexample to claim C3 as stated: invoking the tag-writing
operation on a media file located exactly at the scratch cover path
(`cwd/cover.jpg`) fails before the final save — the scratch write
turns the file into raw bytes, so the inner MP4 load raises — yet the
on-disk media file HAS changed (it now holds the fetched bytes). -/
theorem tag_write_scratch_clobber_cex :
    isRaised (set_m4a_metadata constHttp scratchPath exampleMd scratchWorld).result = true
    ∧ (set_m4a_metadata constHttp scratchPath exampleMd scratchWorld).world.fs scratchPath
      ≠ scratchWorld.fs scratchPath := by
  constructor
  · decide
  · decide

/-- Claim C3 (amended): for every invocation of `set_m4a_metadata` on a
media file whose path differs from the fixed scratch cover path, if
the run raises before the final save — in particular when the HTTP
fetch of the thumbnail fails — the on-disk media file is unchanged.
(A media file at the scratch path itself can be clobbered by the
scratch write before the failure.) -/
theorem tag_write_error_leaves_media_unchanged (http : LChar → Option Bytes)
    (fp : LChar) (md : List (LChar × LChar)) (w : World)
    (hfp : fp ≠ scratchPath) (e : PyErr)
    (herr : (set_m4a_metadata http fp md w).result = Except.error e) :
    (set_m4a_metadata http fp md w).world.fs fp = w.fs fp := by
  cases hw : w.fs fp with
  | none => simp [set_m4a_metadata, hw]
  | some fd =>
    cases fd with
    | mp3 t => simp [set_m4a_metadata, hw]
    | opus t => simp [set_m4a_metadata, hw]
    | raw bb => simp [set_m4a_metadata, hw]
    | mp4 t =>
      cases h1 : dictGet md (("title").data) with
      | none => simp [set_m4a_metadata, hw, h1]
      | some v1 =>
      cases h2 : dictGet md (("channel").data) with
      | none => simp [set_m4a_metadata, hw, h1, h2]
      | some v2 =>
      cases h3 : dictGet md (("upload_date").data) with
      | none => simp [set_m4a_metadata, hw, h1, h2, h3]
      | some v3 =>
      cases h4 : dictGet md (("webpage_url").data) with
      | none => simp [set_m4a_metadata, hw, h1, h2, h3, h4]
      | some v4 =>
      cases h5 : dictGet md (("description").data) with
      | none => simp [set_m4a_metadata, hw, h1, h2, h3, h4, h5]
      | some v5 =>
      cases h6 : dictGet md (("thumbnail").data) with
      | none => simp [set_m4a_metadata, hw, h1, h2, h3, h4, h5, h6]
      | some v6 =>
        cases hr : (set_cover http v6 (some fp) w).result with
        | error e2 =>
          have hunch := set_cover_error_fs http v6 (some fp) w fp hfp e2 hr
          simp [set_m4a_metadata, hw, h1, h2, h3, h4, h5, h6, hr]
          exact hunch.trans hw
        | ok u =>
          exfalso
          simp [set_m4a_metadata, hw, h1, h2, h3, h4, h5, h6, hr] at herr

/-- Concrete instance of claim C3 (amended): a record missing the
`title` field raises a `KeyError` and the media file is untouched. -/
theorem tag_write_error_leaves_media_unchanged_witness :
    (trackPath ≠ scratchPath)
    ∧ (set_m4a_metadata exampleHttp trackPath [] exampleWorld).result
      = Except.error (PyErr.keyError (("title").data))
    ∧ (set_m4a_metadata exampleHttp trackPath [] exampleWorld).world.fs trackPath
      = exampleWorld.fs trackPath :=
  ⟨by decide, rfl,
   tag_write_error_leaves_media_unchanged exampleHttp trackPath [] exampleWorld
     (by decide) (PyErr.keyError (("title").data)) rfl⟩
